import Mathlib

/-!
Verification of the lonely-SAT CNF generator
(`src/lonely_cnf_generator.cpp`).

The development shallowly embeds the program's data model and
operations: the `CNF` builder (variable allocation, clause storage,
DIMACS emission), the sequential-counter cardinality encoder
(`buildSequentialCounter`, `addAtMostK`, `addExactlyK`), the
dominance-based preprocessing (`dominatesVelocity`,
`reduceCandidatesByDominance`, `buildCoverageSets`,
`reduceTimesByDominance`) and the constraint assembly from `main`
(`coverageAssembly`, `encodeFrom`).  C++ `int` literals become `Int`,
`std::bitset` becomes `List Bool` (fixed width in the source),
`vector<vector<int>> s` becomes a functional table `Nat → Nat → Int`
initialised to `0`, and the `for` loops become folds over index
ranges.
-/

namespace LonelySAT

/-- The CNF builder: a variable counter and the stored clauses
(`struct CNF`, lines 35-53 of the source). -/
structure CNF where
  numVars : Nat
  clauses : List (List Int)
  deriving Repr, DecidableEq

/-- `int newVar() { return ++numVars; }`: allocate a fresh variable and
return its (1-based) id together with the updated instance. -/
def newVar (c : CNF) : Int × CNF :=
  (((c.numVars + 1 : Nat) : Int), { c with numVars := c.numVars + 1 })

/-- `void addClause(const vector<int>& lits)`: append a clause, skipping
the accidental empty clause. -/
def addClause (c : CNF) (lits : List Int) : CNF :=
  if lits.isEmpty then c else { c with clauses := c.clauses ++ [lits] }

/-- Separator-joined list of strings; used to state the DIMACS format
("space-separated literals", "one line per clause"). -/
def sepJoin (sep : String) : List String → String
  | [] => ""
  | [a] => a
  | a :: b :: rest => a ++ sep ++ sepJoin sep (b :: rest)

/-- `void printDIMACS(ostream& out)`: header line, then each clause's
literals each followed by a space, then `0` and a newline. -/
def printDIMACS (c : CNF) : String :=
  "p cnf " ++ toString c.numVars ++ " " ++ toString c.clauses.length ++ "\n" ++
    String.join (c.clauses.map (fun cl =>
      String.join (cl.map (fun lit => toString lit ++ " ")) ++ "0\n"))

/-! ## Propositional semantics of stored clauses -/

/-- A literal (nonzero signed integer) is satisfied by an assignment of
the boolean variables: positive sign asserts the variable, negative sign
negates it. -/
def litSat (σ : Int → Bool) (l : Int) : Bool :=
  if 0 < l then σ l else !σ (-l)

/-- A clause is satisfied when some literal in it is. -/
def clauseSat (σ : Int → Bool) (cl : List Int) : Bool :=
  cl.any (litSat σ)

/-- A clause list is satisfied when every clause is. -/
def cnfSat (σ : Int → Bool) (cls : List (List Int)) : Bool :=
  cls.all (clauseSat σ)

/-- Number of true literals of `xs` under an assignment. -/
def countTrue (σ : Int → Bool) (xs : List Int) : Nat :=
  (xs.filter (litSat σ)).length

/-- A CNF instance is satisfiable when some assignment satisfies every
stored clause. -/
def satisfiable (c : CNF) : Prop :=
  ∃ σ : Int → Bool, cnfSat σ c.clauses = true

/-- Every stored literal names an allocated variable: magnitude at least
1 and at most the variable counter. -/
def CNF.wf (c : CNF) : Prop :=
  ∀ cl ∈ c.clauses, ∀ l ∈ cl, 1 ≤ l.natAbs ∧ l.natAbs ≤ c.numVars

/-! ## Sequential counter (`buildSequentialCounter`, lines 57-113) -/

/-- The auxiliary table `vector<vector<int>> s`, modelled functionally;
unallocated cells hold `0` as in the source. -/
def Tbl : Type := Nat → Nat → Int

/-- Write one cell of the auxiliary table (`s[i][j] = v`). -/
def updT (s : Tbl) (i j : Nat) (v : Int) : Tbl :=
  fun i' j' => if i' = i ∧ j' = j then v else s i' j'

/-- Body of the inner loop of `buildSequentialCounter` for one cell
`(i, j)` (lines 73-104): allocate `s[i][j]`, then add the forward and
backward implication clauses guarded exactly as in the source. -/
def cellStep (xs : List Int) (i : Nat) (st : CNF × Tbl) (j : Nat) : CNF × Tbl :=
  let xi := xs.getD (i - 1) 0
  let p := newVar st.1
  let s := updT st.2 i j p.1
  let cnf := p.2
  let cnf := if j ≤ i - 1 ∧ s (i-1) j ≠ 0 then
      addClause cnf [-(s (i-1) j), s i j] else cnf
  let cnf := if 2 ≤ j ∧ s (i-1) (j-1) ≠ 0 then
      addClause cnf [-xi, -(s (i-1) (j-1)), s i j] else cnf
  let cnf := if j = 1 then addClause cnf [-xi, s i j] else cnf
  let cnf :=
    if j = 1 then
      if s (i-1) 1 ≠ 0 then addClause cnf [-(s i j), s (i-1) 1, xi]
      else addClause cnf [-(s i j), xi]
    else if j ≤ i - 1 then
      let cnf := if s (i-1) j ≠ 0 then addClause cnf [-(s i j), s (i-1) j, xi] else cnf
      if s (i-1) (j-1) ≠ 0 ∧ s (i-1) j ≠ 0 then
        addClause cnf [-(s i j), s (i-1) j, s (i-1) (j-1)] else cnf
    else cnf
  (cnf, s)

/-- Body of the outer loop of `buildSequentialCounter` for one row `i`
(lines 70-110): the inner loop over `j = 1 .. min i R`, then the
"at most R" forbidding clause. -/
def rowStep (xs : List Int) (R : Nat) (st : CNF × Tbl) (i : Nat) : CNF × Tbl :=
  let xi := xs.getD (i - 1) 0
  let st1 := (List.range' 1 (min i R)).foldl (cellStep xs i) st
  let cnf := if st1.2 (i-1) R ≠ 0 then
      addClause st1.1 [-xi, -(st1.2 (i-1) R)] else st1.1
  (cnf, st1.2)

/-- `buildSequentialCounter(cnf, xs, R)` (lines 57-113): returns the
grown instance and the C++ return value `s[n][R]` (`0` when the guard
fires). -/
def buildSequentialCounter (cnf : CNF) (xs : List Int) (R : Int) : CNF × Int :=
  let n := xs.length
  if R > (n : Int) ∨ R ≤ 0 ∨ n = 0 then (cnf, 0)
  else
    let Rn := R.toNat
    let p := newVar cnf
    let s : Tbl := updT (fun _ _ => 0) 1 1 p.1
    let cnf1 := addClause p.2 [-(xs.getD 0 0), s 1 1]
    let cnf2 := addClause cnf1 [-(s 1 1), xs.getD 0 0]
    let st := (List.range' 2 (n - 1)).foldl (rowStep xs Rn) (cnf2, s)
    (st.1, st.2 n Rn)

/-- `addAtMostK(cnf, xs, R)` (lines 116-119). -/
def addAtMostK (cnf : CNF) (xs : List Int) (R : Int) : CNF :=
  if xs.length = 0 ∨ R ≥ (xs.length : Int) then cnf
  else (buildSequentialCounter cnf xs R).1

/-- `addExactlyK(cnf, xs, Kexact)` (lines 122-130): build the counter
and force `s[n][K]` when it was allocated. -/
def addExactlyK (cnf : CNF) (xs : List Int) (Kexact : Int) : CNF :=
  let N := (xs.length : Int)
  if Kexact < 0 ∨ Kexact > N ∨ N = 0 then cnf
  else
    let st := buildSequentialCounter cnf xs Kexact
    if st.2 ≠ 0 then addClause st.1 [st.2] else st.1

/-! ## Dominance preprocessing (lines 162-228) -/

/-- Bitwise or of two fixed-width bit vectors (`bitset operator|`). -/
def bsOr (a b : List Bool) : List Bool :=
  List.zipWith or a b

/-- `dominatesVelocity(a, b, nearZero, primeDivisors)` (lines 162-170):
`a` dominates `b` when `b`'s coverage bits are a subset of `a`'s and
every prime divisor dividing `b` also divides `a`. -/
def dominatesVelocity (a b : Int) (nearZero : Int → List Bool)
    (primeDivisors : List Int) : Bool :=
  if bsOr (nearZero a) (nearZero b) ≠ nearZero a then false
  else primeDivisors.all (fun q => !(b % q == 0 && a % q != 0))

/-- Body of the inner loop of the pairwise marking pass: mark `j` when
it is distinct from `i`, not yet marked, and `R i j` holds. -/
def innerMark (R : Nat → Nat → Bool) (i : Nat) (dm : List Bool) (j : Nat) : List Bool :=
  if i = j ∨ dm.getD j false then dm
  else if R i j then dm.set j true else dm

/-- One outer iteration of the shared pairwise marking loop used by both
dominance reducers: if row `i` is unmarked, mark every other unmarked
`j` with `R i j`. -/
def markStep (R : Nat → Nat → Bool) (n : Nat) (dom : List Bool) (i : Nat) : List Bool :=
  if dom.getD i false then dom
  else (List.range n).foldl (innerMark R i) dom

/-- The full pairwise marking pass (`for i ... for j ...` of lines
178-186 and 214-221). -/
def markAll (R : Nat → Nat → Bool) (n : Nat) : List Bool :=
  (List.range n).foldl (markStep R n) (List.replicate n false)

/-- `reduceCandidatesByDominance` (lines 172-193): mark dominated
candidates, keep the rest in order. -/
def reduceCandidatesByDominance (candidates : List Int)
    (nearZero : Int → List Bool) (primeDivisors : List Int) : List Int :=
  let numCand := candidates.length
  let dom := markAll
    (fun i j => dominatesVelocity (candidates.getD i 0) (candidates.getD j 0)
      nearZero primeDivisors) numCand
  (List.range numCand).foldl
    (fun acc i => if !(dom.getD i false) then acc ++ [candidates.getD i 0] else acc) []

/-- `buildCoverageSets` (lines 195-208): per-slot bitmaps over candidate
indices. -/
def buildCoverageSets (candidates : List Int) (nearZero : Int → List Bool)
    (numTimes : Nat) : List (List Bool) :=
  (List.range numTimes).map (fun t =>
    candidates.map (fun v => (nearZero v).getD t false))

/-- `reduceTimesByDominance` (lines 210-228): slot `t2` is redundant
when `cover[t1] ⊆ cover[t2]`; return the surviving slot indices. -/
def reduceTimesByDominance (cover : List (List Bool)) : List Nat :=
  let numTimes := cover.length
  let dom := markAll
    (fun t1 t2 => bsOr (cover.getD t1 []) (cover.getD t2 []) == cover.getD t2 [])
    numTimes
  (List.range numTimes).foldl
    (fun acc t => if !(dom.getD t false) then acc ++ [t] else acc) []

/-! ## Constraint assembly (`main`, lines 294-350) -/

/-- The positive literals of the coverage clause of slot `t`: one per
candidate index `j` with `nearZero[candidates[j]][t]` set (lines
307-313). -/
def coverageLits (candidates : List Int) (nearZero : Int → List Bool)
    (xVars : List Int) (t : Nat) : List Int :=
  (List.range candidates.length).filterMap (fun j =>
    if (nearZero (candidates.getD j 0)).getD t false then some (xVars.getD j 0)
    else none)

/-- Body of the coverage-clause loop for one essential slot (lines
307-325). -/
def coverageStep (candidates : List Int) (nearZero : Int → List Bool)
    (xVars : List Int) (st : CNF × Nat) (t : Nat) : CNF × Nat :=
  if (coverageLits candidates nearZero xVars t).isEmpty then
    if st.2 + 1 = 1 then
      (addClause (addClause (newVar st.1).2 [(newVar st.1).1]) [-(newVar st.1).1], st.2 + 1)
    else (st.1, st.2 + 1)
  else (addClause st.1 (coverageLits candidates nearZero xVars t), st.2)

/-- The coverage-clause loop of `main` (lines 306-325): one clause per
essential slot; an uncoverable slot bumps the counter and, the first
time only, inserts the forced-contradiction pair on a fresh variable. -/
def coverageAssembly (cnf : CNF) (candidates : List Int)
    (nearZero : Int → List Bool) (xVars : List Int)
    (essential : List Nat) : CNF × Nat :=
  essential.foldl (coverageStep candidates nearZero xVars) (cnf, 0)

/-- Allocate one variable per candidate (lines 300-303), returning the
variable list and the grown instance. -/
def allocVars (cnf : CNF) (numCandidates : Nat) : List Int × CNF :=
  (List.range numCandidates).foldl
    (fun (acc : List Int × CNF) _ =>
      let p := newVar acc.2
      (acc.1 ++ [p.1], p.2)) ([], cnf)

/-- The encoding pipeline of `main` from an (already reduced) candidate
list (lines 279-350): coverage sets, slot dominance, candidate
variables, coverage clauses, the exactly-`k` constraint, and one
at-most-`(k-2)` constraint per divisor class. -/
def encodeFrom (candidates : List Int) (nearZero : Int → List Bool)
    (numTimes : Nat) (primeDivisors : List Int) (k : Int) : CNF :=
  let coverSets := buildCoverageSets candidates nearZero numTimes
  let essentialTimes := reduceTimesByDominance coverSets
  let numCandidates := candidates.length
  let a := allocVars { numVars := 0, clauses := [] } numCandidates
  let xVars := a.1
  let st := coverageAssembly a.2 candidates nearZero xVars essentialTimes
  let cnf2 := addExactlyK st.1 xVars k
  primeDivisors.foldl (fun c d =>
    let lits := (List.range numCandidates).filterMap (fun j =>
      if (candidates.getD j 0) % d == 0 then some (xVars.getD j 0) else none)
    if lits.isEmpty then c
    else addAtMostK c lits (max 0 (k - 2))) cnf2

/-! ## Explicit characterization of the sequential counter -/

/-- Number of auxiliary counter cells allocated strictly before row `i`:
row `i'` holds `min i' R` cells. -/
def cb (R : Nat) : Nat → Nat
  | 0 => 0
  | i + 1 => cb R i + min i R

/-- The variable id of counter cell `s[i][j]` when the counter starts
from variable counter `v0`. -/
def sVar (v0 R i j : Nat) : Int := ((v0 + cb R i + j : Nat) : Int)

/-- The clauses emitted for cell `(i, j)` of row `i ≥ 2`, with the
source's guards resolved for `1 ≤ j ≤ min i R`. -/
def cellClauses (v0 : Nat) (xs : List Int) (R i j : Nat) : List (List Int) :=
  let xi := xs.getD (i - 1) 0
  let sij := sVar v0 R i j
  (if j ≤ i - 1 then [[-(sVar v0 R (i-1) j), sij]] else []) ++
  (if 2 ≤ j then [[-xi, -(sVar v0 R (i-1) (j-1)), sij]] else []) ++
  (if j = 1 then [[-xi, sij]] else []) ++
  (if j = 1 then [[-sij, sVar v0 R (i-1) 1, xi]]
   else if j ≤ i - 1 then
     [[-sij, sVar v0 R (i-1) j, xi], [-sij, sVar v0 R (i-1) j, sVar v0 R (i-1) (j-1)]]
   else [])

/-- The clauses emitted for row `i ≥ 2`: the cells, then the forbidding
clause when `s[i-1][R]` exists. -/
def rowClauses (v0 : Nat) (xs : List Int) (R i : Nat) : List (List Int) :=
  ((List.range' 1 (min i R)).map (cellClauses v0 xs R i)).flatten ++
  (if R ≤ i - 1 then [[-(xs.getD (i-1) 0), -(sVar v0 R (i-1) R)]] else [])

/-- All clauses emitted by `buildSequentialCounter` for `1 ≤ R ≤ |xs|`:
the two base clauses for `s[1][1]`, then the rows `2 .. |xs|`. -/
def scClauses (v0 : Nat) (xs : List Int) (R : Nat) : List (List Int) :=
  [[-(xs.getD 0 0), sVar v0 R 1 1], [-(sVar v0 R 1 1), xs.getD 0 0]] ++
  ((List.range' 2 (xs.length - 1)).map (rowClauses v0 xs R)).flatten

/-- The auxiliary table after the rows before `i` are complete and the
cells `(i, 1) .. (i, j)` of row `i` are allocated. -/
def tblP (v0 R i j : Nat) : Tbl :=
  fun a b =>
    if 1 ≤ a ∧ 1 ≤ b ∧ b ≤ min a R ∧ (a < i ∨ (a = i ∧ b ≤ j)) then sVar v0 R a b
    else 0

/-! ## Auxiliary definitions used by the characterization and the claims -/

/-- `countTrue` over a prefix of `xs`: the meaning of the counter cell
`s[i][j]` is `j ≤ cntp σ xs i`. -/
def cntp (σ : Int → Bool) (xs : List Int) (i : Nat) : Nat :=
  countTrue σ (xs.take i)

/-- All cells `(i, j)` of the counter table, row by row. -/
def cellsList (R n : Nat) : List (Nat × Nat) :=
  ((List.range' 1 n).map (fun i => (List.range' 1 (min i R)).map (fun j => (i, j)))).flatten

/-- The canonical extension of an assignment to the counter's auxiliary
variables: cell `(i, j)` is true exactly when at least `j` of the first
`i` literals are true. -/
def canonExt (σ : Int → Bool) (v0 : Nat) (xs : List Int) (R : Nat) : Int → Bool :=
  fun v =>
    if v ≤ (v0 : Int) then σ v
    else
      match (cellsList R xs.length).find? (fun p => sVar v0 R p.1 p.2 == v) with
      | some p => decide (p.2 ≤ countTrue σ (xs.take p.1))
      | none => σ v

/-- The justification invariant of the marking pass: every marked row
has an unmarked row related to it. -/
def MarkInv (R : Nat → Nat → Bool) (n : Nat) (dom : List Bool) : Prop :=
  ∀ j < n, dom.getD j false = true →
    ∃ i < n, dom.getD i false = false ∧ R i j = true

/-- The pair invariant: once the uncoverable counter is positive, the
forced-contradiction pair is stored. -/
def PairInv (st : CNF × Nat) : Prop :=
  1 ≤ st.2 → ∃ d : Int, 0 < d ∧ [d] ∈ st.1.clauses ∧ [-d] ∈ st.1.clauses

/-- The problem variables handed out by `allocVars` on a fresh instance:
`1, 2, ..., N`. -/
def xVarsOf (N : Nat) : List Int := (List.range N).map (fun j => ((j + 1 : Nat) : Int))

/-- `σ` satisfies every surviving coverage obligation of the instance built
from `C`: each essential slot has a true surviving candidate. -/
def coversAll (C : List Int) (nz : Int → List Bool) (T : Nat) (σ : Int → Bool) : Prop :=
  ∀ t ∈ reduceTimesByDominance (buildCoverageSets C nz T),
    ∃ j < C.length, (nz (C.getD j 0)).getD t false = true ∧
      σ ((j + 1 : Nat) : Int) = true

/-- The set of problem-variable indices that `σ` makes true. -/
def trueIdxF (σ : Int → Bool) (N : Nat) : Finset Nat :=
  (Finset.range N).filter (fun j => σ ((j + 1 : Nat) : Int) = true)

/-- The output format as the specification words it: the header line, then
one line per stored clause, its literals in insertion order separated by
single spaces and terminated by a trailing `0`. -/
def dimacsSpec (c : CNF) : String :=
  "p cnf " ++ toString c.numVars ++ " " ++ toString c.clauses.length ++ "\n" ++
    String.join (c.clauses.map (fun cl =>
      sepJoin " " (cl.map toString ++ ["0"]) ++ "\n"))

/-- The near-zero rows of the C3 counterexample: candidate 2 dominates
candidates 1 and 3 by coverage, and is the only even candidate. -/
def nzC3 : Int → List Bool := fun v =>
  if v = 1 then [true, false, false]
  else if v = 2 then [true, true, false]
  else if v = 3 then [false, true, false]
  else if v = 4 then [false, false, true]
  else [false, false, false]

theorem updT_apply (s : Tbl) (i j : Nat) (v : Int) (a b : Nat) :
    updT s i j v a b = if a = i ∧ b = j then v else s a b := rfl

theorem tblP_apply (v0 R i j a b : Nat) :
    tblP v0 R i j a b =
      if 1 ≤ a ∧ 1 ≤ b ∧ b ≤ min a R ∧ (a < i ∨ (a = i ∧ b ≤ j)) then sVar v0 R a b
      else 0 := rfl

theorem sVar_pos (v0 R i j : Nat) (hj : 1 ≤ j) : 0 < sVar v0 R i j := by
  simp only [sVar]
  exact_mod_cast Nat.succ_le_iff.mp (by omega)

theorem sVar_ne_zero (v0 R i j : Nat) (hj : 1 ≤ j) : sVar v0 R i j ≠ 0 :=
  ne_of_gt (sVar_pos v0 R i j hj)

theorem addClause_cons (c : CNF) (a : Int) (l : List Int) :
    addClause c (a :: l) = { c with clauses := c.clauses ++ [a :: l] } := by
  simp [addClause]


theorem cellStep_eq (v0 : Nat) (xs : List Int) (R i j : Nat) (cs : List (List Int))
    (hR : 1 ≤ R) (hi : 2 ≤ i) (hj : 1 ≤ j) (hjm : j ≤ min i R) :
    cellStep xs i ({ numVars := v0 + cb R i + (j-1), clauses := cs }, tblP v0 R i (j-1)) j
      = ({ numVars := v0 + cb R i + j, clauses := cs ++ cellClauses v0 xs R i j },
          tblP v0 R i j) := by
  have hji : j ≤ i := le_trans hjm (min_le_left _ _)
  have hjR : j ≤ R := le_trans hjm (min_le_right _ _)
  -- the updated table is the table with row `i` filled up to `j`
  have hupd : updT (tblP v0 R i (j-1)) i j ((((v0 + cb R i + (j-1)) + 1 : Nat) : Int))
      = tblP v0 R i j := by
    funext a b
    simp only [updT_apply, tblP_apply]
    by_cases hab : a = i ∧ b = j
    · obtain ⟨rfl, rfl⟩ := hab
      have hc1 : a = a ∧ b = b := ⟨rfl, rfl⟩
      have hc2 : 1 ≤ a ∧ 1 ≤ b ∧ b ≤ min a R ∧ (a < a ∨ (a = a ∧ b ≤ b)) :=
        ⟨by omega, by omega, hjm, Or.inr ⟨rfl, le_refl b⟩⟩
      rw [if_pos hc1, if_pos hc2]
      simp only [sVar]
      congr 1
      omega
    · rw [if_neg hab]
      split_ifs with hc1 hc2 <;> first | rfl | (exfalso; omega)
  have hread : ∀ b : Nat, tblP v0 R i j (i-1) b
      = if 1 ≤ b ∧ b ≤ min (i-1) R then sVar v0 R (i-1) b else 0 := by
    intro b
    simp only [tblP_apply]
    split_ifs with h1 h2 <;> first | rfl | (exfalso; omega)
  have hsij : tblP v0 R i j i j = sVar v0 R i j := by
    simp only [tblP_apply]
    split_ifs with h
    · rfl
    · exact absurd ⟨by omega, hj, hjm, Or.inr ⟨trivial, le_refl j⟩⟩ h
  simp only [cellStep, newVar]
  rw [hupd]
  simp only [hsij, hread]
  rcases Nat.eq_or_lt_of_le hj with hj1 | hj2
  · -- the column `j = 1`
    obtain rfl : j = 1 := hj1.symm
    have f1 : (1:Nat) ≤ i - 1 := by omega
    have fmin : (1:Nat) ≤ min (i-1) R := le_min (by omega) hR
    have hne1 : sVar v0 R (i-1) 1 ≠ 0 := sVar_ne_zero _ _ _ _ (le_refl 1)
    simp [cellClauses, addClause_cons, f1, fmin, hne1]
  · by_cases hji' : j ≤ i - 1
    · -- interior column `2 ≤ j ≤ i - 1`
      have f2 : j ≤ min (i-1) R := le_min hji' hjR
      have f3 : (1:Nat) ≤ j - 1 := by omega
      have f4 : j - 1 ≤ min (i-1) R := le_min (by omega) (by omega)
      have hnej : sVar v0 R (i-1) j ≠ 0 := sVar_ne_zero _ _ _ _ hj
      have hnejm : sVar v0 R (i-1) (j-1) ≠ 0 := sVar_ne_zero _ _ _ _ f3
      have hne2 : ¬(j = 1) := by omega
      have h2j : 2 ≤ j := hj2
      simp [cellClauses, addClause_cons, f2, f3, f4, hnej, hnejm, hne2, h2j, hj, hji']
      all_goals omega
    · -- the diagonal column `j = i ≤ R`
      have f5 : ¬(j ≤ min (i-1) R) := by omega
      have f6 : j - 1 ≤ min (i-1) R := le_min (by omega) (by omega)
      have f3 : (1:Nat) ≤ j - 1 := by omega
      have hnejm : sVar v0 R (i-1) (j-1) ≠ 0 := sVar_ne_zero _ _ _ _ f3
      have hne2 : ¬(j = 1) := by omega
      have h2j : 2 ≤ j := hj2
      simp [cellClauses, addClause_cons, f5, f6, f3, hnejm, hne2, h2j, hj, hji']
      all_goals omega

theorem rowLoop_eq (v0 : Nat) (xs : List Int) (R i : Nat) (cs : List (List Int))
    (hR : 1 ≤ R) (hi : 2 ≤ i) :
    ∀ m, m ≤ min i R →
      (List.range' 1 m).foldl (cellStep xs i)
          ({ numVars := v0 + cb R i, clauses := cs }, tblP v0 R i 0)
        = ({ numVars := v0 + cb R i + m,
             clauses := cs ++ ((List.range' 1 m).map (cellClauses v0 xs R i)).flatten },
            tblP v0 R i m) := by
  intro m
  induction m with
  | zero => intro _; simp
  | succ m ih =>
    intro hm
    rw [List.range'_1_concat, List.foldl_append, ih (by omega)]
    simp only [List.foldl_cons, List.foldl_nil]
    have h1 : (1:Nat) + m = m + 1 := by omega
    rw [h1]
    have := cellStep_eq v0 xs R i (m+1) (cs ++ ((List.range' 1 m).map (cellClauses v0 xs R i)).flatten) hR hi (by omega) hm
    simp only [Nat.add_sub_cancel] at this
    rw [this]
    simp [List.append_assoc]

theorem rowStep_eq (v0 : Nat) (xs : List Int) (R i : Nat) (cs : List (List Int))
    (hR : 1 ≤ R) (hi : 2 ≤ i) :
    rowStep xs R ({ numVars := v0 + cb R i, clauses := cs }, tblP v0 R i 0) i
      = ({ numVars := v0 + cb R (i+1), clauses := cs ++ rowClauses v0 xs R i },
          tblP v0 R (i+1) 0) := by
  have htbl : tblP v0 R i (min i R) = tblP v0 R (i+1) 0 := by
    funext a b
    simp only [tblP_apply]
    split_ifs with h1 h2 <;> first | rfl | (exfalso; omega)
  have hrd : tblP v0 R i (min i R) (i-1) R
      = if R ≤ i - 1 then sVar v0 R (i-1) R else 0 := by
    simp only [tblP_apply]
    split_ifs with h1 h2 <;> first | rfl | (exfalso; omega)
  simp only [rowStep]
  rw [rowLoop_eq v0 xs R i cs hR hi (min i R) (le_refl _)]
  simp only [hrd]
  by_cases hRi : R ≤ i - 1
  · rw [if_pos hRi] at *
    rw [if_pos (sVar_ne_zero _ _ _ _ hR)]
    simp only [htbl, rowClauses, addClause_cons]
    rw [if_pos hRi]
    simp [List.append_assoc, cb]
    omega
  · rw [if_neg hRi] at *
    rw [if_neg (fun hc => hc rfl)]
    simp only [htbl, rowClauses]
    rw [if_neg hRi]
    simp [List.append_assoc, cb]
    omega

theorem bscLoop_eq (v0 : Nat) (xs : List Int) (R : Nat) (cs : List (List Int))
    (hR : 1 ≤ R) :
    ∀ m,
      (List.range' 2 m).foldl (rowStep xs R)
          ({ numVars := v0 + cb R 2, clauses := cs }, tblP v0 R 2 0)
        = ({ numVars := v0 + cb R (2+m),
             clauses := cs ++ ((List.range' 2 m).map (rowClauses v0 xs R)).flatten },
            tblP v0 R (2+m) 0) := by
  intro m
  induction m with
  | zero => simp
  | succ m ih =>
    rw [List.range'_1_concat, List.foldl_append, ih]
    simp only [List.foldl_cons, List.foldl_nil]
    rw [rowStep_eq v0 xs R (2+m) _ hR (by omega)]
    have h1 : 2 + m + 1 = 2 + (m + 1) := by omega
    rw [h1]
    simp [List.append_assoc]

theorem buildSequentialCounter_eq (cnf : CNF) (xs : List Int) (R : Int)
    (hR1 : 1 ≤ R) (hRn : R ≤ (xs.length : Int)) :
    buildSequentialCounter cnf xs R
      = ({ numVars := cnf.numVars + cb R.toNat (xs.length + 1),
           clauses := cnf.clauses ++ scClauses cnf.numVars xs R.toNat },
          sVar cnf.numVars R.toNat xs.length R.toNat) := by
  obtain ⟨v0, cs⟩ := cnf
  have hn1 : 1 ≤ xs.length := by omega
  have hg : ¬(R > (xs.length : Int) ∨ R ≤ 0 ∨ xs.length = 0) := by omega
  have hRn1 : 1 ≤ R.toNat := by omega
  have hRnn : R.toNat ≤ xs.length := by omega
  simp only [buildSequentialCounter, newVar]
  rw [if_neg hg]
  have hs11 : updT (fun _ _ => (0:Int)) 1 1 ((v0 + 1 : Nat) : Int) 1 1
      = ((v0 + 1 : Nat) : Int) := by
    simp [updT_apply]
  have hbase : updT (fun _ _ => (0:Int)) 1 1 ((v0 + 1 : Nat) : Int) = tblP v0 R.toNat 2 0 := by
    funext a b
    simp only [updT_apply, tblP_apply]
    by_cases hab : a = 1 ∧ b = 1
    · obtain ⟨rfl, rfl⟩ := hab
      have hc2 : 1 ≤ (1:Nat) ∧ 1 ≤ (1:Nat) ∧ 1 ≤ min 1 R.toNat ∧ ((1:Nat) < 2 ∨ ((1:Nat) = 2 ∧ 1 ≤ 0)) :=
        ⟨le_refl 1, le_refl 1, by omega, Or.inl (by omega)⟩
      rw [if_pos ⟨rfl, rfl⟩, if_pos hc2]
      simp only [sVar, cb]
      congr 1
      omega
    · rw [if_neg hab, if_neg (by omega)]
  have hnv : v0 + 1 = v0 + cb R.toNat 2 := by
    simp [cb]
    omega
  simp only [hs11, hbase, addClause_cons]
  have hinit : ({ numVars := v0 + 1,
                  clauses := cs ++ [[-(xs.getD 0 0), ((v0 + 1 : Nat) : Int)]]
                    ++ [[-((v0 + 1 : Nat) : Int), xs.getD 0 0]] } : CNF)
      = { numVars := v0 + cb R.toNat 2,
          clauses := cs ++ [[-(xs.getD 0 0), ((v0 + 1 : Nat) : Int)],
            [-((v0 + 1 : Nat) : Int), xs.getD 0 0]] } := by
    rw [← hnv]
    simp
  rw [hinit, bscLoop_eq v0 xs R.toNat _ hRn1 (xs.length - 1)]
  have h2m : 2 + (xs.length - 1) = xs.length + 1 := by omega
  rw [h2m]
  have hlast : tblP v0 R.toNat (xs.length + 1) 0 xs.length R.toNat
      = sVar v0 R.toNat xs.length R.toNat := by
    simp only [tblP_apply]
    split_ifs with h
    · rfl
    · exact absurd ⟨by omega, by omega, by omega, Or.inl (by omega)⟩ h
  have hv11 : ((v0 + 1 : Nat) : Int) = sVar v0 R.toNat 1 1 := by
    simp only [sVar, cb]
    congr 1
    omega
  simp [scClauses, List.append_assoc, hlast, hv11]

/-! ## Counting lemmas -/

theorem litSat_of_pos (σ : Int → Bool) (l : Int) (h : 0 < l) : litSat σ l = σ l := by
  simp [litSat, h]

theorem litSat_neg_of_pos (σ : Int → Bool) (l : Int) (h : 0 < l) :
    litSat σ (-l) = !(σ l) := by
  simp only [litSat]
  rw [if_neg (by omega)]
  simp

theorem countTrue_nil (σ : Int → Bool) : countTrue σ [] = 0 := rfl

theorem countTrue_cons (σ : Int → Bool) (x : Int) (l : List Int) :
    countTrue σ (x :: l) = (if litSat σ x then 1 else 0) + countTrue σ l := by
  simp only [countTrue, List.filter_cons]
  split_ifs <;> simp [Nat.add_comm]

theorem countTrue_append (σ : Int → Bool) (l1 l2 : List Int) :
    countTrue σ (l1 ++ l2) = countTrue σ l1 + countTrue σ l2 := by
  simp [countTrue, List.filter_append]

theorem cntp_zero (σ : Int → Bool) (xs : List Int) : cntp σ xs 0 = 0 := rfl

theorem cntp_succ (σ : Int → Bool) (xs : List Int) (i : Nat) (h : i < xs.length) :
    cntp σ xs (i+1) = cntp σ xs i + (if litSat σ (xs.getD i 0) then 1 else 0) := by
  simp only [cntp, List.take_succ, List.getElem?_eq_getElem h, Option.toList_some,
    countTrue_append, countTrue_cons, countTrue_nil]
  simp [List.getD_eq_getElem?_getD, List.getElem?_eq_getElem h]

theorem cntp_le (σ : Int → Bool) (xs : List Int) (i : Nat) : cntp σ xs i ≤ i := by
  calc cntp σ xs i ≤ (xs.take i).length := List.length_filter_le _ _
  _ ≤ i := by simp [List.length_take]

theorem cntp_full (σ : Int → Bool) (xs : List Int) :
    cntp σ xs xs.length = countTrue σ xs := by
  simp [cntp, List.take_length]

theorem countTrue_take_le (σ : Int → Bool) (l : List Int) (m : Nat) :
    countTrue σ (l.take m) ≤ countTrue σ l := by
  induction l generalizing m with
  | nil => simp [countTrue_nil, List.take_nil]
  | cons x t ih =>
    cases m with
    | zero => simp [countTrue_nil]
    | succ m =>
      simp only [List.take_succ_cons, countTrue_cons]
      exact Nat.add_le_add_left (ih m) _

theorem cntp_mono (σ : Int → Bool) (xs : List Int) {i i' : Nat} (h : i ≤ i') :
    cntp σ xs i ≤ cntp σ xs i' := by
  have h1 : xs.take i = (xs.take i').take i := by
    rw [List.take_take, Nat.min_eq_left h]
  rw [cntp, h1]
  exact countTrue_take_le σ (xs.take i') i

theorem cntp_succ_le (σ : Int → Bool) (xs : List Int) (i : Nat) (h : i < xs.length) :
    cntp σ xs (i+1) ≤ cntp σ xs i + 1 := by
  rw [cntp_succ σ xs i h]
  split_ifs <;> omega

/-- If more than `m` literals are true, there is a position `p` where the
prefix count is exactly `m` and the literal at `p` is true. -/
theorem exists_crossing (σ : Int → Bool) (xs : List Int) :
    ∀ m, m < countTrue σ xs →
      ∃ p, p < xs.length ∧ cntp σ xs p = m ∧ litSat σ (xs.getD p 0) = true := by
  induction xs with
  | nil => intro m hm; simp [countTrue_nil] at hm
  | cons x t ih =>
    intro m hm
    rw [countTrue_cons] at hm
    by_cases hx : litSat σ x = true
    · simp [hx] at hm
      cases m with
      | zero =>
        exact ⟨0, by simp, rfl, by simpa using hx⟩
      | succ m =>
        obtain ⟨p, hp1, hp2, hp3⟩ := ih m (by omega)
        refine ⟨p + 1, by simpa using hp1, ?_, by simpa using hp3⟩
        have e1 : cntp σ (x :: t) (p+1) = 1 + cntp σ t p := by
          simp [cntp, List.take_succ_cons, countTrue_cons, hx]
        omega
    · simp only [if_neg hx] at hm
      obtain ⟨p, hp1, hp2, hp3⟩ := ih m (by omega)
      refine ⟨p + 1, by simpa using hp1, ?_, by simpa using hp3⟩
      have e1 : cntp σ (x :: t) (p+1) = cntp σ t p := by
        simp [cntp, List.take_succ_cons, countTrue_cons, hx]
      omega

/-! ## Injectivity of the cell ids -/

theorem cb_mono (R : Nat) {i i' : Nat} (h : i ≤ i') : cb R i ≤ cb R i' := by
  induction i' with
  | zero =>
    have h0 : i = 0 := by omega
    subst h0
    exact le_refl _
  | succ i' ih =>
    rcases Nat.lt_or_ge i (i'+1) with h1 | h1
    · have h2 : cb R (i'+1) = cb R i' + min i' R := by rw [cb]
      have h3 := ih (by omega)
      omega
    · have h0 : i = i' + 1 := by omega
      subst h0
      exact le_refl _

theorem cb_step_le (R i j : Nat) (hj : j ≤ min i R) : cb R i + j ≤ cb R (i+1) := by
  have : cb R (i+1) = cb R i + min i R := by rw [cb]
  omega

theorem sVar_inj (v0 R i j i' j' : Nat)
    (hi1 : 1 ≤ i) (hj1 : 1 ≤ j) (hjm : j ≤ min i R)
    (hi1' : 1 ≤ i') (hj1' : 1 ≤ j') (hjm' : j' ≤ min i' R)
    (h : sVar v0 R i j = sVar v0 R i' j') : i = i' ∧ j = j' := by
  have hn : v0 + cb R i + j = v0 + cb R i' + j' := by
    have h2 : ((v0 + cb R i + j : Nat) : Int) = ((v0 + cb R i' + j' : Nat) : Int) := by
      simpa [sVar] using h
    exact_mod_cast h2
  rcases lt_trichotomy i i' with hlt | heq | hgt
  · have h1 := cb_step_le R i j hjm
    have h2 := cb_mono R (show i + 1 ≤ i' by omega)
    omega
  · subst heq
    omega
  · have h1 := cb_step_le R i' j' hjm'
    have h2 := cb_mono R (show i' + 1 ≤ i by omega)
    omega

/-! ## Canonical auxiliary assignment -/

theorem mem_cellsList (R n i j : Nat) :
    (i, j) ∈ cellsList R n ↔ 1 ≤ i ∧ i ≤ n ∧ 1 ≤ j ∧ j ≤ min i R := by
  simp only [cellsList, List.mem_flatten, List.mem_map]
  constructor
  · rintro ⟨s, ⟨a, ha, rfl⟩, hmem⟩
    simp only [List.mem_map] at hmem
    obtain ⟨b, hb, hab⟩ := hmem
    have hab1 : a = i ∧ b = j :=
      ⟨congrArg Prod.fst hab, congrArg Prod.snd hab⟩
    obtain ⟨rfl, rfl⟩ := hab1
    rw [List.mem_range'_1] at ha hb
    omega
  · rintro ⟨h1, h2, h3, h4⟩
    refine ⟨(List.range' 1 (min i R)).map (fun j => (i, j)), ⟨i, ?_, rfl⟩, ?_⟩
    · rw [List.mem_range'_1]
      omega
    · simp only [List.mem_map]
      exact ⟨j, by rw [List.mem_range'_1]; omega, rfl⟩

theorem canonExt_agree (σ : Int → Bool) (v0 : Nat) (xs : List Int) (R : Nat)
    (v : Int) (h : v ≤ (v0 : Int)) : canonExt σ v0 xs R v = σ v := by
  simp [canonExt, h]

theorem canonExt_litSat (σ : Int → Bool) (v0 : Nat) (xs : List Int) (R : Nat)
    (l : Int) (hl : l ≠ 0) (hb : l.natAbs ≤ v0) :
    litSat (canonExt σ v0 xs R) l = litSat σ l := by
  rcases lt_trichotomy l 0 with hneg | hzero | hpos
  · have h1 : (0:Int) < -l := by omega
    have h2 : -l ≤ (v0 : Int) := by omega
    calc litSat (canonExt σ v0 xs R) l = litSat (canonExt σ v0 xs R) (-(-l)) := by rw [neg_neg]
    _ = !(canonExt σ v0 xs R (-l)) := litSat_neg_of_pos _ _ h1
    _ = !(σ (-l)) := by rw [canonExt_agree _ _ _ _ _ h2]
    _ = litSat σ (-(-l)) := (litSat_neg_of_pos _ _ h1).symm
    _ = litSat σ l := by rw [neg_neg]
  · exact absurd hzero hl
  · have h2 : l ≤ (v0 : Int) := by omega
    rw [litSat_of_pos _ _ hpos, litSat_of_pos _ _ hpos, canonExt_agree _ _ _ _ _ h2]

theorem canonExt_cell (σ : Int → Bool) (v0 : Nat) (xs : List Int) (R i j : Nat)
    (hi1 : 1 ≤ i) (hin : i ≤ xs.length) (hj1 : 1 ≤ j) (hjm : j ≤ min i R) :
    canonExt σ v0 xs R (sVar v0 R i j) = decide (j ≤ cntp σ xs i) := by
  have hgt : ¬(sVar v0 R i j ≤ (v0 : Int)) := by
    simp only [sVar, Nat.cast_le]
    omega
  simp only [canonExt, if_neg hgt]
  have hmem : (i, j) ∈ cellsList R xs.length :=
    (mem_cellsList R xs.length i j).2 ⟨hi1, hin, hj1, hjm⟩
  have hsome : ((cellsList R xs.length).find?
      (fun p => sVar v0 R p.1 p.2 == sVar v0 R i j)).isSome := by
    rw [List.find?_isSome]
    exact ⟨(i, j), hmem, by simp⟩
  obtain ⟨p, hp⟩ := Option.isSome_iff_exists.mp hsome
  rw [hp]
  have hpred := List.find?_some hp
  have hpmem := List.mem_of_find?_eq_some hp
  obtain ⟨pi, pj⟩ := p
  simp only [beq_iff_eq] at hpred
  have hbnd := (mem_cellsList R xs.length pi pj).1 hpmem
  obtain ⟨rfl, rfl⟩ := sVar_inj v0 R pi pj i j hbnd.1 hbnd.2.2.1 hbnd.2.2.2 hi1 hj1 hjm hpred
  rfl

/-! ## Clause membership lemmas -/

theorem clauseSat_of_mem (τ : Int → Bool) (cls : List (List Int)) (cl : List Int)
    (hsat : cnfSat τ cls = true) (hmem : cl ∈ cls) : clauseSat τ cl = true := by
  rw [cnfSat, List.all_eq_true] at hsat
  exact hsat cl hmem

theorem litSat_neg (σ : Int → Bool) (l : Int) (hl : l ≠ 0) :
    litSat σ (-l) = !(litSat σ l) := by
  rcases lt_trichotomy l 0 with h | h | h
  · have h1 : (0:Int) < -l := by omega
    rw [litSat_of_pos σ (-l) h1]
    simp only [litSat]
    rw [if_neg (by omega), Bool.not_not]
  · exact absurd h hl
  · rw [litSat_neg_of_pos σ l h, litSat_of_pos σ l h]

theorem mem_scClauses_base1 (v0 : Nat) (xs : List Int) (R : Nat) :
    [-(xs.getD 0 0), sVar v0 R 1 1] ∈ scClauses v0 xs R := by
  simp [scClauses]

theorem mem_scClauses_base2 (v0 : Nat) (xs : List Int) (R : Nat) :
    [-(sVar v0 R 1 1), xs.getD 0 0] ∈ scClauses v0 xs R := by
  simp [scClauses]

theorem mem_scClauses_row (v0 : Nat) (xs : List Int) (R i : Nat)
    (h2 : 2 ≤ i) (hn : i ≤ xs.length) (cl : List Int)
    (hcl : cl ∈ rowClauses v0 xs R i) : cl ∈ scClauses v0 xs R := by
  simp only [scClauses, List.mem_append, List.mem_flatten, List.mem_map]
  right
  refine ⟨rowClauses v0 xs R i, ⟨i, ?_, rfl⟩, hcl⟩
  rw [List.mem_range'_1]
  omega

theorem mem_rowClauses_cell (v0 : Nat) (xs : List Int) (R i j : Nat)
    (hj : 1 ≤ j) (hjm : j ≤ min i R) (cl : List Int)
    (hcl : cl ∈ cellClauses v0 xs R i j) : cl ∈ rowClauses v0 xs R i := by
  simp only [rowClauses, List.mem_append, List.mem_flatten, List.mem_map]
  left
  refine ⟨cellClauses v0 xs R i j, ⟨j, ?_, rfl⟩, hcl⟩
  rw [List.mem_range'_1]
  omega

theorem mem_rowClauses_forbid (v0 : Nat) (xs : List Int) (R i : Nat)
    (hRi : R ≤ i - 1) :
    [-(xs.getD (i-1) 0), -(sVar v0 R (i-1) R)] ∈ rowClauses v0 xs R i := by
  simp only [rowClauses, List.mem_append]
  right
  rw [if_pos hRi]
  simp

theorem mem_cellClauses_g1 (v0 : Nat) (xs : List Int) (R i j : Nat)
    (h : j ≤ i - 1) :
    [-(sVar v0 R (i-1) j), sVar v0 R i j] ∈ cellClauses v0 xs R i j := by
  simp [cellClauses, h]

theorem mem_cellClauses_g2 (v0 : Nat) (xs : List Int) (R i j : Nat)
    (h : 2 ≤ j) :
    [-(xs.getD (i-1) 0), -(sVar v0 R (i-1) (j-1)), sVar v0 R i j]
      ∈ cellClauses v0 xs R i j := by
  simp [cellClauses, h]

theorem mem_cellClauses_g3 (v0 : Nat) (xs : List Int) (R i : Nat) :
    [-(xs.getD (i-1) 0), sVar v0 R i 1] ∈ cellClauses v0 xs R i 1 := by
  simp [cellClauses]

theorem clauseSat_pair (τ : Int → Bool) (l1 l2 : Int) :
    clauseSat τ [l1, l2] = true ↔ litSat τ l1 = true ∨ litSat τ l2 = true := by
  simp [clauseSat]

theorem clauseSat_triple (τ : Int → Bool) (l1 l2 l3 : Int) :
    clauseSat τ [l1, l2, l3] = true
      ↔ litSat τ l1 = true ∨ litSat τ l2 = true ∨ litSat τ l3 = true := by
  simp [clauseSat]

theorem litSat_neg_elim (τ : Int → Bool) (l : Int) (hl : l ≠ 0)
    (hpos : litSat τ l = true) (hneg : litSat τ (-l) = true) : False := by
  rw [litSat_neg τ l hl, hpos] at hneg
  simp at hneg

/-- The forward clauses force every counter cell that the true-literal
count reaches. -/
theorem sc_forces (v0 : Nat) (xs : List Int) (R : Nat) (τ : Int → Bool)
    (hR : 1 ≤ R) (hx : ∀ l ∈ xs, l ≠ 0)
    (hsat : cnfSat τ (scClauses v0 xs R) = true) :
    ∀ i, 1 ≤ i → i ≤ xs.length → ∀ j, 1 ≤ j → j ≤ min i R →
      j ≤ cntp τ xs i → τ (sVar v0 R i j) = true := by
  intro i
  induction i with
  | zero => omega
  | succ i ih =>
    intro _ hin j hj1 hjm hjc
    have hxi : xs.getD i 0 ∈ xs := by
      have hlt : i < xs.length := by omega
      rw [List.getD_eq_getElem?_getD, List.getElem?_eq_getElem hlt]
      exact List.getElem_mem hlt
    have hxine : xs.getD i 0 ≠ 0 := hx _ hxi
    rcases Nat.eq_or_lt_of_le (show 1 ≤ i + 1 by omega) with hbase | hstep
    · -- row 1: the base clause
      obtain rfl : i = 0 := by omega
      obtain rfl : j = 1 := by omega
      have hcnt1 : litSat τ (xs.getD 0 0) = true := by
        by_cases hlx : litSat τ (xs.getD 0 0) = true
        · exact hlx
        · exfalso
          have hstep := cntp_succ τ xs 0 (by omega)
          rw [cntp_zero, if_neg hlx] at hstep
          omega
      have hc := (clauseSat_pair τ _ _).1
        (clauseSat_of_mem τ _ _ hsat (mem_scClauses_base1 v0 xs R))
      rcases hc with hc | hc
      · exact (litSat_neg_elim τ _ hxine hcnt1 hc).elim
      · rwa [litSat_of_pos τ _ (sVar_pos v0 R 1 1 (le_refl 1))] at hc
    · -- rows 2 and beyond
      have hi1 : 1 ≤ i := by omega
      by_cases hprev : j ≤ cntp τ xs i
      · -- the count was already reached: monotonicity clause
        have hji : j ≤ i := le_trans hprev (cntp_le τ xs i)
        have hforce := ih hi1 (by omega) j hj1 (by omega) hprev
        have hmem := mem_scClauses_row v0 xs R (i+1) (by omega) hin _
          (mem_rowClauses_cell v0 xs R (i+1) j hj1 (by simpa using hjm) _
            (mem_cellClauses_g1 v0 xs R (i+1) j (by simpa using hji)))
        simp only [Nat.add_sub_cancel] at hmem
        have hc := (clauseSat_pair τ _ _).1 (clauseSat_of_mem τ _ _ hsat hmem)
        rcases hc with hc | hc
        · exfalso
          have hpos : litSat τ (sVar v0 R i j) = true := by
            rw [litSat_of_pos τ _ (sVar_pos v0 R i j hj1)]
            exact hforce
          exact litSat_neg_elim τ _ (sVar_ne_zero v0 R i j hj1) hpos hc
        · rwa [litSat_of_pos τ _ (sVar_pos v0 R (i+1) j hj1)] at hc
      · -- the `(i+1)`-st literal provides the increment
        have hxt : litSat τ (xs.getD i 0) = true := by
          by_cases hlx : litSat τ (xs.getD i 0) = true
          · exact hlx
          · exfalso
            have hstep := cntp_succ τ xs i (by omega)
            rw [if_neg hlx] at hstep
            omega
        have hcnti : j - 1 ≤ cntp τ xs i := by
          have hstep := cntp_succ τ xs i (by omega)
          rw [if_pos hxt] at hstep
          omega
        rcases Nat.eq_or_lt_of_le hj1 with hjone | hjtwo
        · -- `j = 1`: the increment clause for the first level
          obtain rfl : j = 1 := hjone.symm
          have hmem := mem_scClauses_row v0 xs R (i+1) (by omega) hin _
            (mem_rowClauses_cell v0 xs R (i+1) 1 (le_refl 1) (by simpa using hjm) _
              (mem_cellClauses_g3 v0 xs R (i+1)))
          simp only [Nat.add_sub_cancel] at hmem
          have hc := (clauseSat_pair τ _ _).1 (clauseSat_of_mem τ _ _ hsat hmem)
          rcases hc with hc | hc
          · exact (litSat_neg_elim τ _ hxine hxt hc).elim
          · rwa [litSat_of_pos τ _ (sVar_pos v0 R (i+1) 1 (le_refl 1))] at hc
        · -- `j ≥ 2`: the increment clause for higher levels
          have hj2 : 2 ≤ j := hjtwo
          have hjm1 : j - 1 ≤ min i R := by
            have := cntp_le τ xs i
            omega
          have hforce := ih hi1 (by omega) (j-1) (by omega) hjm1 hcnti
          have hmem := mem_scClauses_row v0 xs R (i+1) (by omega) hin _
            (mem_rowClauses_cell v0 xs R (i+1) j hj1 (by simpa using hjm) _
              (mem_cellClauses_g2 v0 xs R (i+1) j hj2))
          simp only [Nat.add_sub_cancel] at hmem
          have hc := (clauseSat_triple τ _ _ _).1 (clauseSat_of_mem τ _ _ hsat hmem)
          rcases hc with hc | hc | hc
          · exact (litSat_neg_elim τ _ hxine hxt hc).elim
          · exfalso
            have hpos : litSat τ (sVar v0 R i (j-1)) = true := by
              rw [litSat_of_pos τ _ (sVar_pos v0 R i (j-1) (by omega))]
              exact hforce
            exact litSat_neg_elim τ _ (sVar_ne_zero v0 R i (j-1) (by omega)) hpos hc
          · rwa [litSat_of_pos τ _ (sVar_pos v0 R (i+1) j hj1)] at hc

/-- Soundness of the counter clauses: any satisfying assignment has at
most `R` true literals. -/
theorem sc_sound (v0 : Nat) (xs : List Int) (R : Nat) (τ : Int → Bool)
    (hR1 : 1 ≤ R) (hRn : R ≤ xs.length) (hx : ∀ l ∈ xs, l ≠ 0)
    (hsat : cnfSat τ (scClauses v0 xs R) = true) :
    countTrue τ xs ≤ R := by
  by_contra hgt
  obtain ⟨p, hp1, hp2, hp3⟩ := exists_crossing τ xs R (by omega)
  have hpR : R ≤ p := by
    have := cntp_le τ xs p
    omega
  have hforce := sc_forces v0 xs R τ hR1 hx hsat p (by omega) (by omega) R hR1
    (by omega) (by omega)
  have hmem := mem_scClauses_row v0 xs R (p+1) (by omega) (by omega) _
    (mem_rowClauses_forbid v0 xs R (p+1) (by simpa using hpR))
  simp only [Nat.add_sub_cancel] at hmem
  have hxi : xs.getD p 0 ∈ xs := by
    rw [List.getD_eq_getElem?_getD, List.getElem?_eq_getElem hp1]
    exact List.getElem_mem hp1
  have hc := (clauseSat_pair τ _ _).1 (clauseSat_of_mem τ _ _ hsat hmem)
  rcases hc with hc | hc
  · exact litSat_neg_elim τ _ (hx _ hxi) hp3 hc
  · have hpos : litSat τ (sVar v0 R p R) = true := by
      rw [litSat_of_pos τ _ (sVar_pos v0 R p R hR1)]
      exact hforce
    exact litSat_neg_elim τ _ (sVar_ne_zero v0 R p R hR1) hpos hc

theorem cellClauses_cases (v0 : Nat) (xs : List Int) (R i j : Nat) (hj1 : 1 ≤ j)
    (cl : List Int) (hcl : cl ∈ cellClauses v0 xs R i j) :
    (j ≤ i - 1 ∧ cl = [-(sVar v0 R (i-1) j), sVar v0 R i j]) ∨
    (2 ≤ j ∧ cl = [-(xs.getD (i-1) 0), -(sVar v0 R (i-1) (j-1)), sVar v0 R i j]) ∨
    (j = 1 ∧ cl = [-(xs.getD (i-1) 0), sVar v0 R i j]) ∨
    (j = 1 ∧ cl = [-(sVar v0 R i j), sVar v0 R (i-1) 1, xs.getD (i-1) 0]) ∨
    (2 ≤ j ∧ j ≤ i - 1 ∧ cl = [-(sVar v0 R i j), sVar v0 R (i-1) j, xs.getD (i-1) 0]) ∨
    (2 ≤ j ∧ j ≤ i - 1 ∧ cl = [-(sVar v0 R i j), sVar v0 R (i-1) j, sVar v0 R (i-1) (j-1)]) := by
  by_cases hg3 : j = 1
  · subst hg3
    have hg2 : ¬(2:Nat) ≤ 1 := by omega
    by_cases hg1 : (1:Nat) ≤ i - 1 <;>
      simp only [cellClauses, hg1, hg2, eq_self_iff_true, reduceIte,
        List.mem_append, List.mem_cons, List.not_mem_nil, or_false, false_or,
        List.append_nil, List.nil_append] at hcl <;>
      tauto
  · by_cases hg1 : j ≤ i - 1 <;> by_cases hg2 : 2 ≤ j <;>
      simp only [cellClauses, hg1, hg2, hg3, eq_self_iff_true, reduceIte,
        List.mem_append, List.mem_cons, List.not_mem_nil, or_false, false_or,
        List.append_nil, List.nil_append] at hcl <;>
      first | omega | tauto

/-- Completeness of the counter clauses: an assignment with at most `R`
true literals extends canonically to a model. -/
theorem sc_complete (v0 : Nat) (xs : List Int) (R : Nat) (σ : Int → Bool)
    (hR1 : 1 ≤ R) (hRn : R ≤ xs.length)
    (hx : ∀ l ∈ xs, l ≠ 0 ∧ l.natAbs ≤ v0)
    (hcnt : countTrue σ xs ≤ R) :
    cnfSat (canonExt σ v0 xs R) (scClauses v0 xs R) = true := by
  have hn1 : 1 ≤ xs.length := by omega
  have hx1 : xs.getD 0 0 ∈ xs := by
    rw [List.getD_eq_getElem?_getD, List.getElem?_eq_getElem (by omega : 0 < xs.length)]
    exact List.getElem_mem _
  rw [cnfSat, List.all_eq_true]
  intro cl hcl
  simp only [scClauses, List.mem_append, List.mem_cons, List.not_mem_nil, or_false,
    List.mem_flatten, List.mem_map] at hcl
  have hlit1 : litSat (canonExt σ v0 xs R) (xs.getD 0 0) = litSat σ (xs.getD 0 0) :=
    canonExt_litSat σ v0 xs R _ (hx _ hx1).1 (hx _ hx1).2
  have hcell := canonExt_cell σ v0 xs R
  rcases hcl with (rfl | rfl) | ⟨s, ⟨i, hi, rfl⟩, hcl⟩
  · -- base clause `x1 → s[1][1]`
    rw [clauseSat_pair]
    rw [litSat_neg _ _ (hx _ hx1).1, hlit1,
      litSat_of_pos _ _ (sVar_pos v0 R 1 1 (le_refl 1)),
      hcell 1 1 (le_refl 1) hn1 (le_refl 1) (by omega)]
    cases hb : litSat σ (xs.getD 0 0)
    · left; simp
    · right
      have := cntp_succ σ xs 0 (by omega)
      rw [cntp_zero, if_pos hb] at this
      simp only [Nat.zero_add] at this
      simp only [decide_eq_true_eq]
      omega
  · -- base clause `s[1][1] → x1`
    rw [clauseSat_pair]
    rw [litSat_neg _ _ (sVar_ne_zero v0 R 1 1 (le_refl 1)),
      litSat_of_pos _ _ (sVar_pos v0 R 1 1 (le_refl 1)),
      hcell 1 1 (le_refl 1) hn1 (le_refl 1) (by omega), hlit1]
    cases hb : litSat σ (xs.getD 0 0)
    · left
      have := cntp_succ σ xs 0 (by omega)
      rw [cntp_zero, if_neg (by rw [hb]; exact Bool.false_ne_true)] at this
      simp only [Nat.zero_add] at this
      simp only [Bool.not_eq_true', decide_eq_false_iff_not]
      omega
    · right; rfl
  · -- a row clause for row `2 ≤ i ≤ n`
    rw [List.mem_range'_1] at hi
    have hi2 : 2 ≤ i := hi.1
    have hin : i ≤ xs.length := by omega
    have hxi : xs.getD (i-1) 0 ∈ xs := by
      rw [List.getD_eq_getElem?_getD, List.getElem?_eq_getElem (by omega : i - 1 < xs.length)]
      exact List.getElem_mem _
    have hliti : litSat (canonExt σ v0 xs R) (xs.getD (i-1) 0) = litSat σ (xs.getD (i-1) 0) :=
      canonExt_litSat σ v0 xs R _ (hx _ hxi).1 (hx _ hxi).2
    have hstep : cntp σ xs i = cntp σ xs (i-1)
        + (if litSat σ (xs.getD (i-1) 0) then 1 else 0) := by
      have h1 := cntp_succ σ xs (i-1) (by omega)
      have h2 : i - 1 + 1 = i := by omega
      rwa [h2] at h1
    simp only [rowClauses, List.mem_append, List.mem_flatten, List.mem_map] at hcl
    rcases hcl with ⟨s, ⟨j, hj, rfl⟩, hcl⟩ | hcl
    · -- a cell clause
      rw [List.mem_range'_1] at hj
      have hj1 : 1 ≤ j := hj.1
      have hjm : j ≤ min i R := by omega
      have hjR : j ≤ R := by omega
      rcases cellClauses_cases v0 xs R i j hj1 cl hcl with
        ⟨hg, rfl⟩ | ⟨hg, rfl⟩ | ⟨hg, rfl⟩ | ⟨hg, rfl⟩ | ⟨hg1, hg2, rfl⟩ | ⟨hg1, hg2, rfl⟩
      · -- monotonicity `s[i-1][j] → s[i][j]`
        rw [clauseSat_pair,
          litSat_neg _ _ (sVar_ne_zero v0 R (i-1) j hj1),
          litSat_of_pos _ _ (sVar_pos v0 R (i-1) j hj1),
          litSat_of_pos _ _ (sVar_pos v0 R i j hj1),
          hcell (i-1) j (by omega) (by omega) hj1 (by omega),
          hcell i j (by omega) hin hj1 hjm]
        have := cntp_mono σ xs (show i - 1 ≤ i by omega)
        by_cases hb : j ≤ cntp σ xs (i-1)
        · right; simp only [decide_eq_true_eq]; omega
        · left; simp only [Bool.not_eq_true', decide_eq_false_iff_not]; omega
      · -- increment `x_i ∧ s[i-1][j-1] → s[i][j]`
        rw [clauseSat_triple,
          litSat_neg _ _ (hx _ hxi).1, hliti,
          litSat_neg _ _ (sVar_ne_zero v0 R (i-1) (j-1) (by omega)),
          litSat_of_pos _ _ (sVar_pos v0 R (i-1) (j-1) (by omega)),
          litSat_of_pos _ _ (sVar_pos v0 R i j hj1),
          hcell (i-1) (j-1) (by omega) (by omega) (by omega) (by omega),
          hcell i j (by omega) hin hj1 hjm]
        cases hb : litSat σ (xs.getD (i-1) 0)
        · left; simp
        · by_cases hbc : j - 1 ≤ cntp σ xs (i-1)
          · right; right
            rw [if_pos hb] at hstep
            simp only [decide_eq_true_eq]
            omega
          · right; left
            simp only [Bool.not_eq_true', decide_eq_false_iff_not]
            omega
      · -- increment at level 1 `x_i → s[i][1]`
        subst hg
        rw [clauseSat_pair,
          litSat_neg _ _ (hx _ hxi).1, hliti,
          litSat_of_pos _ _ (sVar_pos v0 R i 1 (le_refl 1)),
          hcell i 1 (by omega) hin (le_refl 1) (by omega)]
        cases hb : litSat σ (xs.getD (i-1) 0)
        · left; simp
        · right
          rw [if_pos hb] at hstep
          simp only [decide_eq_true_eq]
          omega
      · -- backward at level 1 `s[i][1] → s[i-1][1] ∨ x_i`
        subst hg
        rw [clauseSat_triple,
          litSat_neg _ _ (sVar_ne_zero v0 R i 1 (le_refl 1)),
          litSat_of_pos _ _ (sVar_pos v0 R i 1 (le_refl 1)),
          litSat_of_pos _ _ (sVar_pos v0 R (i-1) 1 (le_refl 1)),
          hcell i 1 (by omega) hin (le_refl 1) (by omega),
          hcell (i-1) 1 (by omega) (by omega) (le_refl 1) (by omega), hliti]
        cases hb : litSat σ (xs.getD (i-1) 0)
        · rw [if_neg (by rw [hb]; exact Bool.false_ne_true)] at hstep
          by_cases hbc : 1 ≤ cntp σ xs (i-1)
          · right; left; simp only [decide_eq_true_eq]; omega
          · left
            simp only [Bool.not_eq_true', decide_eq_false_iff_not]
            omega
        · right; right; rfl
      · -- backward `s[i][j] → s[i-1][j] ∨ x_i`
        rw [clauseSat_triple,
          litSat_neg _ _ (sVar_ne_zero v0 R i j hj1),
          litSat_of_pos _ _ (sVar_pos v0 R i j hj1),
          litSat_of_pos _ _ (sVar_pos v0 R (i-1) j hj1),
          hcell i j (by omega) hin hj1 hjm,
          hcell (i-1) j (by omega) (by omega) hj1 (by omega), hliti]
        cases hb : litSat σ (xs.getD (i-1) 0)
        · rw [if_neg (by rw [hb]; exact Bool.false_ne_true)] at hstep
          by_cases hbc : j ≤ cntp σ xs (i-1)
          · right; left; simp only [decide_eq_true_eq]; omega
          · left
            simp only [Bool.not_eq_true', decide_eq_false_iff_not]
            omega
        · right; right; rfl
      · -- backward `s[i][j] → s[i-1][j] ∨ s[i-1][j-1]`
        rw [clauseSat_triple,
          litSat_neg _ _ (sVar_ne_zero v0 R i j hj1),
          litSat_of_pos _ _ (sVar_pos v0 R i j hj1),
          litSat_of_pos _ _ (sVar_pos v0 R (i-1) j hj1),
          litSat_of_pos _ _ (sVar_pos v0 R (i-1) (j-1) (by omega)),
          hcell i j (by omega) hin hj1 hjm,
          hcell (i-1) j (by omega) (by omega) hj1 (by omega),
          hcell (i-1) (j-1) (by omega) (by omega) (by omega) (by omega)]
        by_cases hbc : j ≤ cntp σ xs i
        · have hd : j - 1 ≤ cntp σ xs (i-1) := by
            have := cntp_succ_le σ xs (i-1) (by omega)
            have h2 : i - 1 + 1 = i := by omega
            rw [h2] at this
            omega
          right; right; simp only [decide_eq_true_eq]; omega
        · left
          simp only [Bool.not_eq_true', decide_eq_false_iff_not]
          omega
    · -- the forbidding clause
      rcases le_or_lt R (i - 1) with hRi | hRi
      · rw [if_pos hRi] at hcl
        simp only [List.mem_cons, List.not_mem_nil, or_false] at hcl
        subst hcl
        rw [clauseSat_pair,
          litSat_neg _ _ (hx _ hxi).1, hliti,
          litSat_neg _ _ (sVar_ne_zero v0 R (i-1) R hR1),
          litSat_of_pos _ _ (sVar_pos v0 R (i-1) R hR1),
          hcell (i-1) R (by omega) (by omega) hR1 (by omega)]
        cases hb : litSat σ (xs.getD (i-1) 0)
        · left; simp
        · right
          rw [if_pos hb] at hstep
          have hle : cntp σ xs i ≤ countTrue σ xs := by
            rw [← cntp_full σ xs]
            exact cntp_mono σ xs hin
          simp only [Bool.not_eq_true', decide_eq_false_iff_not]
          omega
      · rw [if_neg (by omega)] at hcl
        simp at hcl

/-! ## Operation-level characterizations -/

theorem countTrue_agree (σ τ : Int → Bool) (v0 : Nat) (xs : List Int)
    (hx : ∀ l ∈ xs, l ≠ 0 ∧ l.natAbs ≤ v0)
    (hagree : ∀ v : Int, 0 < v → v ≤ (v0 : Int) → τ v = σ v) :
    countTrue τ xs = countTrue σ xs := by
  induction xs with
  | nil => rfl
  | cons x t ih =>
    have hx0 := hx x (by simp)
    have hlit : litSat τ x = litSat σ x := by
      rcases lt_trichotomy x 0 with hneg | hzero | hpos
      · rw [show x = -(-x) by omega, litSat_neg τ (-x) (by omega),
          litSat_neg σ (-x) (by omega), litSat_of_pos τ (-x) (by omega),
          litSat_of_pos σ (-x) (by omega), hagree (-x) (by omega) (by omega)]
      · exact absurd hzero hx0.1
      · rw [litSat_of_pos τ x hpos, litSat_of_pos σ x hpos,
          hagree x hpos (by omega)]
    rw [countTrue_cons, countTrue_cons, hlit,
      ih (fun l hl => hx l (by simp [hl]))]

theorem addAtMostK_eq (cnf : CNF) (xs : List Int) (R : Int)
    (hR1 : 1 ≤ R) (hRn : R < (xs.length : Int)) :
    addAtMostK cnf xs R
      = { numVars := cnf.numVars + cb R.toNat (xs.length + 1),
          clauses := cnf.clauses ++ scClauses cnf.numVars xs R.toNat } := by
  rw [addAtMostK, if_neg (by omega),
    buildSequentialCounter_eq cnf xs R hR1 (by omega)]

theorem addAtMostK_noop (cnf : CNF) (xs : List Int) (R : Int)
    (h : xs.length = 0 ∨ R ≥ (xs.length : Int)) : addAtMostK cnf xs R = cnf := by
  rw [addAtMostK, if_pos h]

theorem addAtMostK_nonpos (cnf : CNF) (xs : List Int) (R : Int)
    (h : R ≤ 0) : addAtMostK cnf xs R = cnf := by
  by_cases hg : xs.length = 0 ∨ R ≥ (xs.length : Int)
  · rw [addAtMostK, if_pos hg]
  · rw [addAtMostK, if_neg hg, buildSequentialCounter, if_pos (by omega)]

theorem addExactlyK_eq (cnf : CNF) (xs : List Int) (K : Int)
    (hK1 : 1 ≤ K) (hKn : K ≤ (xs.length : Int)) :
    addExactlyK cnf xs K
      = { numVars := cnf.numVars + cb K.toNat (xs.length + 1),
          clauses := cnf.clauses ++ scClauses cnf.numVars xs K.toNat
            ++ [[sVar cnf.numVars K.toNat xs.length K.toNat]] } := by
  rw [addExactlyK]
  rw [if_neg (by omega)]
  rw [buildSequentialCounter_eq cnf xs K hK1 hKn]
  rw [if_pos (sVar_ne_zero cnf.numVars K.toNat xs.length K.toNat (by omega))]
  rw [addClause_cons]

theorem addExactlyK_noop (cnf : CNF) (xs : List Int) (K : Int)
    (h : K ≤ 0 ∨ K > (xs.length : Int)) : addExactlyK cnf xs K = cnf := by
  by_cases hg : K < 0 ∨ K > (xs.length : Int) ∨ (xs.length : Int) = 0
  · simp only [addExactlyK]
    rw [if_pos hg]
  · have hK0 : K = 0 := by omega
    subst hK0
    have hb : buildSequentialCounter cnf xs 0 = (cnf, 0) := by
      simp only [buildSequentialCounter]
      rw [if_pos (by omega)]
    simp only [addExactlyK, hb]
    rw [if_neg hg]
    simp

theorem cnfSat_append (σ : Int → Bool) (a b : List (List Int)) :
    cnfSat σ (a ++ b) = (cnfSat σ a && cnfSat σ b) := by
  simp [cnfSat, List.all_append]

/-- The model property of the at-most-`R` encoding, for `1 ≤ R < |xs|`:
an assignment of the problem variables extends to a model of the emitted
clauses exactly when at most `R` of the literals are true. -/
theorem atMostK_model_iff (v0 : Nat) (xs : List Int) (R : Int) (σ : Int → Bool)
    (hx : ∀ l ∈ xs, l ≠ 0 ∧ l.natAbs ≤ v0)
    (hR1 : 1 ≤ R) (hRn : R < (xs.length : Int)) :
    (∃ τ : Int → Bool, (∀ v : Int, 0 < v → v ≤ (v0 : Int) → τ v = σ v) ∧
        cnfSat τ (addAtMostK { numVars := v0, clauses := [] } xs R).clauses = true)
      ↔ countTrue σ xs ≤ R.toNat := by
  rw [addAtMostK_eq _ xs R hR1 hRn]
  simp only [List.nil_append]
  constructor
  · rintro ⟨τ, hagree, hsat⟩
    rw [← countTrue_agree σ τ v0 xs hx hagree]
    exact sc_sound v0 xs R.toNat τ (by omega) (by omega)
      (fun l hl => (hx l hl).1) hsat
  · intro hcnt
    refine ⟨canonExt σ v0 xs R.toNat, ?_, ?_⟩
    · intro v hv1 hv2
      exact canonExt_agree σ v0 xs R.toNat v hv2
    · exact sc_complete v0 xs R.toNat σ (by omega) (by omega) hx hcnt

/-! ## The marking pass: every mark is justified by an unmarked row -/

theorem getD_set_ne (l : List Bool) (i j : Nat) (a : Bool) (h : i ≠ j) :
    (l.set i a).getD j false = l.getD j false := by
  simp [List.getD_eq_getElem?_getD, List.getElem?_set_ne h]

theorem innerMark_getD_i (R : Nat → Nat → Bool) (i : Nat) (dm : List Bool) (j : Nat) :
    (innerMark R i dm j).getD i false = dm.getD i false := by
  unfold innerMark
  split_ifs with h1 h2
  · rfl
  · rw [getD_set_ne dm j i true (by tauto)]
  · rfl

theorem innerMark_mono (R : Nat → Nat → Bool) (i : Nat) (dm : List Bool) (j k : Nat)
    (h : dm.getD k false = true) : (innerMark R i dm j).getD k false = true := by
  unfold innerMark
  split_ifs with h1 h2
  · exact h
  · by_cases hkj : j = k
    · subst hkj
      simp only [not_or] at h1
      exact absurd h h1.2.elim
    · rw [getD_set_ne dm j k true hkj]
      exact h
  · exact h

theorem innerMark_new (R : Nat → Nat → Bool) (i : Nat) (dm : List Bool) (j k : Nat)
    (h : (innerMark R i dm j).getD k false = true) :
    dm.getD k false = true ∨ R i k = true := by
  unfold innerMark at h
  split_ifs at h with h1 h2
  · exact Or.inl h
  · by_cases hkj : j = k
    · subst hkj
      exact Or.inr h2
    · rw [getD_set_ne dm j k true hkj] at h
      exact Or.inl h
  · exact Or.inl h

theorem foldl_innerMark_getD_i (R : Nat → Nat → Bool) (i : Nat) (L : List Nat) :
    ∀ dm : List Bool, (L.foldl (innerMark R i) dm).getD i false = dm.getD i false := by
  induction L with
  | nil => intro dm; rfl
  | cons j L ih =>
    intro dm
    rw [List.foldl_cons, ih, innerMark_getD_i]

theorem foldl_innerMark_mono (R : Nat → Nat → Bool) (i : Nat) (L : List Nat) :
    ∀ (dm : List Bool) (k : Nat), dm.getD k false = true →
      (L.foldl (innerMark R i) dm).getD k false = true := by
  induction L with
  | nil => intro dm k h; exact h
  | cons j L ih =>
    intro dm k h
    rw [List.foldl_cons]
    exact ih _ k (innerMark_mono R i dm j k h)

theorem foldl_innerMark_new (R : Nat → Nat → Bool) (i : Nat) (L : List Nat) :
    ∀ (dm : List Bool) (k : Nat), (L.foldl (innerMark R i) dm).getD k false = true →
      dm.getD k false = true ∨ R i k = true := by
  induction L with
  | nil => intro dm k h; exact Or.inl h
  | cons j L ih =>
    intro dm k h
    rw [List.foldl_cons] at h
    rcases ih _ k h with h2 | h2
    · exact innerMark_new R i dm j k h2
    · exact Or.inr h2

theorem markStep_inv (R : Nat → Nat → Bool) (n : Nat) (dom : List Bool) (i : Nat)
    (htrans : ∀ a b c, R a b = true → R b c = true → R a c = true)
    (hi : i < n) (hInv : MarkInv R n dom) : MarkInv R n (markStep R n dom i) := by
  unfold markStep
  split_ifs with hskip
  · exact hInv
  · intro j hjn hj
    have hmi : dom.getD i false = false := by
      cases h : dom.getD i false
      · rfl
      · exact absurd h hskip.elim
    have hinew : ((List.range n).foldl (innerMark R i) dom).getD i false = false := by
      rw [foldl_innerMark_getD_i]
      exact hmi
    by_cases hold : dom.getD j false = true
    · obtain ⟨w, hwn, hwUnm, hwRel⟩ := hInv j hjn hold
      by_cases hw2 : ((List.range n).foldl (innerMark R i) dom).getD w false = true
      · rcases foldl_innerMark_new R i (List.range n) dom w hw2 with h2 | h2
        · exact absurd h2 (by rw [hwUnm]; exact Bool.false_ne_true)
        · exact ⟨i, hi, hinew, htrans i w j h2 hwRel⟩
      · refine ⟨w, hwn, ?_, hwRel⟩
        cases h : ((List.range n).foldl (innerMark R i) dom).getD w false
        · rfl
        · exact absurd h hw2.elim
    · rcases foldl_innerMark_new R i (List.range n) dom j hj with h2 | h2
      · exact absurd h2 hold
      · exact ⟨i, hi, hinew, h2⟩

theorem markAll_inv (R : Nat → Nat → Bool) (n : Nat)
    (htrans : ∀ a b c, R a b = true → R b c = true → R a c = true) :
    MarkInv R n (markAll R n) := by
  have hgen : ∀ (L : List Nat), (∀ i ∈ L, i < n) → ∀ dom, MarkInv R n dom →
      MarkInv R n (L.foldl (markStep R n) dom) := by
    intro L
    induction L with
    | nil => intro _ dom h; exact h
    | cons i L ih =>
      intro hL dom h
      rw [List.foldl_cons]
      exact ih (fun a ha => hL a (by simp [ha])) _
        (markStep_inv R n dom i htrans (hL i (by simp)) h)
  apply hgen (List.range n) (fun i hi => List.mem_range.mp hi)
  intro j _ hj
  rw [List.getD_eq_getElem?_getD] at hj
  rcases Nat.lt_or_ge j n with hjn | hjn
  · rw [List.getElem?_eq_getElem (by simpa using hjn)] at hj
    simp [List.getElem_replicate] at hj
  · rw [List.getElem?_eq_none (by simpa using hjn)] at hj
    simp at hj

theorem markStep_getD_false (R : Nat → Nat → Bool) (n : Nat) (dom : List Bool) (i : Nat)
    (h : dom.getD i false = false) :
    (markStep R n dom i).getD i false = false := by
  unfold markStep
  rw [if_neg (by rw [h]; exact Bool.false_ne_true), foldl_innerMark_getD_i]
  exact h

/-- Some row always survives the marking pass. -/
theorem markAll_exists_unmarked (R : Nat → Nat → Bool) (n : Nat) (hn : 1 ≤ n) :
    ∃ i < n, (markAll R n).getD i false = false := by
  have hgen : ∀ (L : List Nat), (∀ i ∈ L, i < n) → ∀ dom : List Bool,
      (∃ i < n, dom.getD i false = false) →
      ∃ i < n, (L.foldl (markStep R n) dom).getD i false = false := by
    intro L
    induction L with
    | nil => intro _ dom h; exact h
    | cons i L ih =>
      intro hL dom h
      rw [List.foldl_cons]
      refine ih (fun a ha => hL a (by simp [ha])) _ ?_
      by_cases hski : dom.getD i false = true
      · obtain ⟨w, hwn, hw⟩ := h
        refine ⟨w, hwn, ?_⟩
        unfold markStep
        rw [if_pos hski]
        exact hw
      · have hmi : dom.getD i false = false := by
          cases hh : dom.getD i false
          · rfl
          · exact absurd hh hski
        exact ⟨i, hL i (by simp), markStep_getD_false R n dom i hmi⟩
  apply hgen (List.range n) (fun i hi => List.mem_range.mp hi)
  refine ⟨0, hn, ?_⟩
  rw [List.getD_eq_getElem?_getD, List.getElem?_eq_getElem (by simpa using hn)]
  simp [List.getElem_replicate]

/-! ## Subset tests on bit vectors -/

theorem bsOr_left_trans : ∀ a b c : List Bool,
    bsOr a b = a → bsOr b c = b → bsOr a c = a := by
  intro a
  induction a with
  | nil => intro b c _ _; rfl
  | cons x a ih =>
    intro b c h1 h2
    cases b with
    | nil => exact absurd h1 (by simp [bsOr])
    | cons y b =>
      cases c with
      | nil => exact absurd h2 (by simp [bsOr])
      | cons z c =>
        simp only [bsOr, List.zipWith_cons_cons, List.cons.injEq] at h1 h2 ⊢
        refine ⟨?_, ih b c h1.2 h2.2⟩
        cases x <;> cases y <;> cases z <;> simp_all

theorem bsOr_right_trans : ∀ a b c : List Bool,
    bsOr a b = b → bsOr b c = c → bsOr a c = c := by
  intro a
  induction a with
  | nil =>
    intro b c h1 h2
    simp only [bsOr, List.zipWith_nil_left] at h1
    subst h1
    simpa [bsOr] using h2
  | cons x a ih =>
    intro b c h1 h2
    cases b with
    | nil =>
      simp only [bsOr, List.zipWith_nil_left] at h2
      subst h2
      rfl
    | cons y b =>
      cases c with
      | nil => rfl
      | cons z c =>
        simp only [bsOr, List.zipWith_cons_cons, List.cons.injEq] at h1 h2 ⊢
        refine ⟨?_, ih b c h1.2 h2.2⟩
        cases x <;> cases y <;> cases z <;> simp_all

theorem dominatesVelocity_iff (a b : Int) (nz : Int → List Bool) (ds : List Int) :
    dominatesVelocity a b nz ds = true
      ↔ bsOr (nz a) (nz b) = nz a ∧ ∀ q ∈ ds, b % q = 0 → a % q = 0 := by
  unfold dominatesVelocity
  split_ifs with h
  · simp only [Bool.false_eq_true, false_iff, not_and]
    intro hc
    exact absurd hc h
  · rw [not_not] at h
    simp only [h, true_and, List.all_eq_true]
    constructor
    · intro hall q hq hbq
      have := hall q hq
      simp only [Bool.not_eq_true', Bool.and_eq_false_iff, beq_eq_false_iff_ne,
        bne_eq_false_iff_eq] at this
      rcases this with h1 | h1
      · exact absurd hbq h1
      · exact h1
    · intro himp q hq
      by_cases hbq : b % q = 0
      · have := himp q hq hbq
        simp [this, hbq]
      · simp [hbq]

theorem dominatesVelocity_trans (a b c : Int) (nz : Int → List Bool) (ds : List Int)
    (h1 : dominatesVelocity a b nz ds = true)
    (h2 : dominatesVelocity b c nz ds = true) :
    dominatesVelocity a c nz ds = true := by
  rw [dominatesVelocity_iff] at h1 h2 ⊢
  exact ⟨bsOr_left_trans _ _ _ h1.1 h2.1,
    fun q hq hcq => h1.2 q hq (h2.2 q hq hcq)⟩

/-! ## Extraction of the surviving rows -/

theorem foldl_extract {α : Type} (f : Nat → α) (p : Nat → Bool) (L : List Nat) :
    ∀ acc : List α,
      L.foldl (fun acc i => if p i then acc ++ [f i] else acc) acc
        = acc ++ (L.filter p).map f := by
  induction L with
  | nil => intro acc; simp
  | cons i L ih =>
    intro acc
    rw [List.foldl_cons]
    by_cases hp : p i
    · rw [if_pos hp, ih, List.filter_cons, if_pos hp]
      simp
    · rw [if_neg hp, ih, List.filter_cons, if_neg (by simpa using hp)]

theorem reduceCandidatesByDominance_eq (candidates : List Int)
    (nz : Int → List Bool) (ds : List Int) :
    reduceCandidatesByDominance candidates nz ds
      = (((List.range candidates.length).filter
            (fun i => !((markAll (fun i j => dominatesVelocity (candidates.getD i 0)
              (candidates.getD j 0) nz ds) candidates.length).getD i false))).map
          (fun i => candidates.getD i 0)) := by
  unfold reduceCandidatesByDominance
  rw [foldl_extract]
  simp

theorem reduceTimesByDominance_eq (cover : List (List Bool)) :
    reduceTimesByDominance cover
      = ((List.range cover.length).filter
          (fun t => !((markAll (fun t1 t2 => bsOr (cover.getD t1 []) (cover.getD t2 [])
            == cover.getD t2 []) cover.length).getD t false))) := by
  unfold reduceTimesByDominance
  rw [foldl_extract]
  simp

theorem filter_range_map_getD_sublist {α : Type} (l : List α) (d : α) (p : Nat → Bool) :
    (((List.range l.length).filter p).map (fun i => l.getD i d)).Sublist l := by
  induction l generalizing p with
  | nil => simp
  | cons x t ih =>
    rw [List.length_cons, List.range_succ_eq_map, List.filter_cons]
    by_cases hp : p 0
    · rw [if_pos hp]
      simp only [List.map_cons, List.getD_cons_zero, List.filter_map, List.map_map]
      refine List.Sublist.cons₂ x ?_
      have heq : ((List.range t.length).filter (p ∘ Nat.succ)).map
          ((fun i => (x :: t).getD i d) ∘ Nat.succ)
          = ((List.range t.length).filter (p ∘ Nat.succ)).map (fun i => t.getD i d) := by
        apply List.map_congr_left
        intro i _
        simp
      rw [heq]
      exact ih (p ∘ Nat.succ)
    · rw [if_neg (by simpa using hp)]
      simp only [List.filter_map, List.map_map]
      refine List.Sublist.cons x ?_
      have heq : ((List.range t.length).filter (p ∘ Nat.succ)).map
          ((fun i => (x :: t).getD i d) ∘ Nat.succ)
          = ((List.range t.length).filter (p ∘ Nat.succ)).map (fun i => t.getD i d) := by
        apply List.map_congr_left
        intro i _
        simp
      rw [heq]
      exact ih (p ∘ Nat.succ)

theorem bsOr_self : ∀ a : List Bool, bsOr a a = a := by
  intro a
  induction a with
  | nil => rfl
  | cons x a ih =>
    simp only [bsOr, List.zipWith_cons_cons] at *
    rw [ih]
    cases x <;> rfl

theorem dominatesVelocity_refl (v : Int) (nz : Int → List Bool) (ds : List Int) :
    dominatesVelocity v v nz ds = true := by
  rw [dominatesVelocity_iff]
  exact ⟨bsOr_self _, fun q _ h => h⟩

theorem bsOr_eq_subset : ∀ a b : List Bool, a.length = b.length → bsOr a b = b →
    ∀ j, a.getD j false = true → b.getD j false = true := by
  intro a
  induction a with
  | nil => intro b _ _ j h; simp at h
  | cons x a ih =>
    intro b hlen hor j h
    cases b with
    | nil => simp at hlen
    | cons y b =>
      simp only [bsOr, List.zipWith_cons_cons, List.cons.injEq] at hor
      cases j with
      | zero =>
        simp only [List.getD_cons_zero] at h ⊢
        rw [← hor.1, h]
        simp
      | succ j =>
        simp only [List.getD_cons_succ] at h ⊢
        exact ih b (by simpa using hlen) hor.2 j h

/-- Every slot discarded by the slot reducer is covered by a surviving
slot whose covering set is contained in its own. -/
theorem reduceTimes_discarded_has_subset (cover : List (List Bool)) (W : Nat)
    (hW : ∀ row ∈ cover, row.length = W)
    (t : Nat) (ht : t < cover.length) (hdisc : t ∉ reduceTimesByDominance cover) :
    ∃ t' ∈ reduceTimesByDominance cover,
      ∀ j : Nat, (cover.getD t' []).getD j false = true →
        (cover.getD t []).getD j false = true := by
  have htrans : ∀ a b c : Nat,
      (bsOr (cover.getD a []) (cover.getD b []) == cover.getD b []) = true →
      (bsOr (cover.getD b []) (cover.getD c []) == cover.getD c []) = true →
      (bsOr (cover.getD a []) (cover.getD c []) == cover.getD c []) = true := by
    intro a b c h1 h2
    rw [beq_iff_eq] at h1 h2 ⊢
    exact bsOr_right_trans _ _ _ h1 h2
  have hmarked : (markAll (fun t1 t2 => bsOr (cover.getD t1 []) (cover.getD t2 [])
      == cover.getD t2 []) cover.length).getD t false = true := by
    by_contra hun
    apply hdisc
    rw [reduceTimesByDominance_eq, List.mem_filter]
    refine ⟨List.mem_range.mpr ht, ?_⟩
    cases hh : (markAll (fun t1 t2 => bsOr (cover.getD t1 []) (cover.getD t2 [])
        == cover.getD t2 []) cover.length).getD t false
    · rfl
    · exact absurd hh hun
  obtain ⟨t', ht'n, ht'un, ht'rel⟩ := markAll_inv _ cover.length htrans t ht hmarked
  refine ⟨t', ?_, ?_⟩
  · rw [reduceTimesByDominance_eq, List.mem_filter]
    exact ⟨List.mem_range.mpr ht'n, by rw [ht'un]; rfl⟩
  · rw [beq_iff_eq] at ht'rel
    have hrow : cover.getD t' [] ∈ cover := by
      rw [List.getD_eq_getElem?_getD, List.getElem?_eq_getElem ht'n]
      exact List.getElem_mem _
    have hrow2 : cover.getD t [] ∈ cover := by
      rw [List.getD_eq_getElem?_getD, List.getElem?_eq_getElem ht]
      exact List.getElem_mem _
    exact bsOr_eq_subset _ _ (by rw [hW _ hrow, hW _ hrow2]) ht'rel

/-- Every candidate (kept or removed) is dominated by some surviving
candidate. -/
theorem reduceCandidates_dominator (cands : List Int) (nz : Int → List Bool)
    (ds : List Int) :
    ∀ j < cands.length, ∃ c' ∈ reduceCandidatesByDominance cands nz ds,
      dominatesVelocity c' (cands.getD j 0) nz ds = true := by
  intro j hj
  have htrans : ∀ a b c : Nat,
      dominatesVelocity (cands.getD a 0) (cands.getD b 0) nz ds = true →
      dominatesVelocity (cands.getD b 0) (cands.getD c 0) nz ds = true →
      dominatesVelocity (cands.getD a 0) (cands.getD c 0) nz ds = true :=
    fun a b c h1 h2 => dominatesVelocity_trans _ _ _ nz ds h1 h2
  cases hm : (markAll (fun i j => dominatesVelocity (cands.getD i 0)
      (cands.getD j 0) nz ds) cands.length).getD j false
  · refine ⟨cands.getD j 0, ?_, dominatesVelocity_refl _ nz ds⟩
    rw [reduceCandidatesByDominance_eq]
    refine List.mem_map.mpr ⟨j, ?_, rfl⟩
    rw [List.mem_filter]
    exact ⟨List.mem_range.mpr hj, by rw [hm]; rfl⟩
  · obtain ⟨i, hin, hiun, hirel⟩ := markAll_inv _ cands.length htrans j hj hm
    refine ⟨cands.getD i 0, ?_, hirel⟩
    rw [reduceCandidatesByDominance_eq]
    refine List.mem_map.mpr ⟨i, ?_, rfl⟩
    rw [List.mem_filter]
    exact ⟨List.mem_range.mpr hin, by rw [hiun]; rfl⟩

/-! ## Constraint-assembly lemmas -/

theorem allocVars_eq (cnf : CNF) (m : Nat) :
    allocVars cnf m
      = ((List.range m).map (fun j => ((cnf.numVars + j + 1 : Nat) : Int)),
          { cnf with numVars := cnf.numVars + m }) := by
  unfold allocVars
  induction m with
  | zero => simp
  | succ m ih =>
    rw [List.range_succ, List.foldl_append, ih]
    simp only [List.foldl_cons, List.foldl_nil, newVar, List.range_succ, List.map_append,
      List.map_cons, List.map_nil, Prod.mk.injEq]
    exact ⟨trivial, rfl⟩

theorem coverageStep_clauses_ext (candidates : List Int) (nz : Int → List Bool)
    (xVars : List Int) (st : CNF × Nat) (t : Nat) :
    ∃ L, (coverageStep candidates nz xVars st t).1.clauses = st.1.clauses ++ L := by
  unfold coverageStep
  split_ifs with h1 h2
  · exact ⟨[[((st.1.numVars + 1 : Nat) : Int)], [-((st.1.numVars + 1 : Nat) : Int)]],
      by simp [addClause_cons, newVar, List.append_assoc]⟩
  · exact ⟨[], by simp⟩
  · rcases hcl : coverageLits candidates nz xVars t with _ | ⟨a, l⟩
    · rw [hcl] at h1
      simp at h1
    · exact ⟨[a :: l], by simp [addClause_cons]⟩

theorem coverageAssembly_foldl_clauses_ext (candidates : List Int)
    (nz : Int → List Bool) (xVars : List Int) (essential : List Nat) :
    ∀ st : CNF × Nat, ∃ L,
      (essential.foldl (coverageStep candidates nz xVars) st).1.clauses
        = st.1.clauses ++ L := by
  induction essential with
  | nil => intro st; exact ⟨[], by simp⟩
  | cons t ess ih =>
    intro st
    rw [List.foldl_cons]
    obtain ⟨L1, h1⟩ := ih (coverageStep candidates nz xVars st t)
    obtain ⟨L2, h2⟩ := coverageStep_clauses_ext candidates nz xVars st t
    exact ⟨L2 ++ L1, by rw [h1, h2, List.append_assoc]⟩

theorem coverageAssembly_mem_clause (candidates : List Int) (nz : Int → List Bool)
    (xVars : List Int) (essential : List Nat) :
    ∀ st : CNF × Nat, ∀ t ∈ essential, coverageLits candidates nz xVars t ≠ [] →
      coverageLits candidates nz xVars t
        ∈ (essential.foldl (coverageStep candidates nz xVars) st).1.clauses := by
  induction essential with
  | nil => intro st t ht; simp at ht
  | cons t0 ess ih =>
    intro st t ht hne
    rw [List.foldl_cons]
    rcases List.mem_cons.mp ht with rfl | htess
    · obtain ⟨L, hL⟩ := coverageAssembly_foldl_clauses_ext candidates nz xVars ess
        (coverageStep candidates nz xVars st t)
      rw [hL]
      apply List.mem_append_left
      unfold coverageStep
      rw [if_neg (by simpa [List.isEmpty_iff] using hne)]
      rcases hcl : coverageLits candidates nz xVars t with _ | ⟨a, l⟩
      · exact absurd hcl hne
      · simp [addClause_cons]
    · exact ih _ t htess hne

theorem coverageStep_cnt_mono (candidates : List Int) (nz : Int → List Bool)
    (xVars : List Int) (st : CNF × Nat) (t : Nat) :
    st.2 ≤ (coverageStep candidates nz xVars st t).2 := by
  unfold coverageStep
  split_ifs <;> simp

theorem coverageAssembly_foldl_cnt_mono (candidates : List Int) (nz : Int → List Bool)
    (xVars : List Int) (essential : List Nat) :
    ∀ st : CNF × Nat, st.2 ≤ (essential.foldl (coverageStep candidates nz xVars) st).2 := by
  induction essential with
  | nil => intro st; exact le_refl _
  | cons t ess ih =>
    intro st
    rw [List.foldl_cons]
    exact le_trans (coverageStep_cnt_mono candidates nz xVars st t) (ih _)

theorem coverageStep_pairInv (candidates : List Int) (nz : Int → List Bool)
    (xVars : List Int) (st : CNF × Nat) (t : Nat)
    (h : PairInv st) : PairInv (coverageStep candidates nz xVars st t) := by
  unfold coverageStep
  split_ifs with h1 h2
  · intro _
    refine ⟨((st.1.numVars + 1 : Nat) : Int), by positivity, ?_, ?_⟩
    · simp [addClause_cons, newVar]
    · simp [addClause_cons, newVar]
  · intro _
    have hst : 1 ≤ st.2 := by omega
    exact h hst
  · intro hc
    obtain ⟨d, hd, hd1, hd2⟩ := h hc
    rcases hcl : coverageLits candidates nz xVars t with _ | ⟨a, l⟩
    · rw [hcl] at h1
      simp at h1
    · exact ⟨d, hd, by simp [addClause_cons, hd1], by simp [addClause_cons, hd2]⟩

theorem coverageAssembly_pair (candidates : List Int) (nz : Int → List Bool)
    (xVars : List Int) (essential : List Nat) :
    ∀ st : CNF × Nat, PairInv st →
      (∃ t ∈ essential, coverageLits candidates nz xVars t = []) →
      ∃ d : Int, 0 < d ∧
        [d] ∈ (essential.foldl (coverageStep candidates nz xVars) st).1.clauses ∧
        [-d] ∈ (essential.foldl (coverageStep candidates nz xVars) st).1.clauses := by
  have hfoldInv : ∀ (ess : List Nat) (st : CNF × Nat), PairInv st →
      PairInv (ess.foldl (coverageStep candidates nz xVars) st) := by
    intro ess
    induction ess with
    | nil => intro st h; exact h
    | cons t ess ih =>
      intro st h
      rw [List.foldl_cons]
      exact ih _ (coverageStep_pairInv candidates nz xVars st t h)
  induction essential with
  | nil => intro st _ hbad; simp at hbad
  | cons t0 ess ih =>
    intro st hInv hbad
    rw [List.foldl_cons]
    rcases hbad with ⟨t, ht, htempty⟩
    rcases List.mem_cons.mp ht with rfl | htess
    · -- the empty slot is processed now, so the counter becomes positive
      have hcnt1 : 1 ≤ (coverageStep candidates nz xVars st t).2 := by
        unfold coverageStep
        rw [if_pos (by simp [htempty])]
        split_ifs <;> simp
      have hcntfin := coverageAssembly_foldl_cnt_mono candidates nz xVars ess
        (coverageStep candidates nz xVars st t)
      have hInv2 := hfoldInv ess _ (coverageStep_pairInv candidates nz xVars st t hInv)
      exact hInv2 (by omega)
    · exact ih _ (coverageStep_pairInv candidates nz xVars st t0 hInv) ⟨t, htess, htempty⟩

theorem unsat_of_pair (c : CNF) (d : Int) (hd : 0 < d)
    (h1 : [d] ∈ c.clauses) (h2 : [-d] ∈ c.clauses) : ¬satisfiable c := by
  rintro ⟨σ, hσ⟩
  have hc1 := clauseSat_of_mem σ c.clauses [d] hσ h1
  have hc2 := clauseSat_of_mem σ c.clauses [-d] hσ h2
  simp only [clauseSat, List.any_cons, List.any_nil, Bool.or_false] at hc1 hc2
  exact litSat_neg_elim σ d (by omega) hc1 hc2

theorem coverageAssembly_all_nonempty (candidates : List Int) (nz : Int → List Bool)
    (xVars : List Int) (essential : List Nat) :
    ∀ cnf : CNF, (∀ t ∈ essential, coverageLits candidates nz xVars t ≠ []) →
      coverageAssembly cnf candidates nz xVars essential
        = ({ cnf with clauses :=
              cnf.clauses ++ essential.map (coverageLits candidates nz xVars) }, 0) := by
  unfold coverageAssembly
  have hgen : ∀ (ess : List Nat) (cnf : CNF),
      (∀ t ∈ ess, coverageLits candidates nz xVars t ≠ []) →
      ess.foldl (coverageStep candidates nz xVars) (cnf, 0)
        = ({ cnf with clauses :=
              cnf.clauses ++ ess.map (coverageLits candidates nz xVars) }, 0) := by
    intro ess
    induction ess with
    | nil => intro cnf _; simp
    | cons t ess ih =>
      intro cnf hne
      rw [List.foldl_cons]
      have hstep : coverageStep candidates nz xVars (cnf, 0) t
          = ({ cnf with clauses := cnf.clauses ++ [coverageLits candidates nz xVars t] }, 0) := by
        unfold coverageStep
        rw [if_neg (by simpa [List.isEmpty_iff] using hne t (by simp))]
        rcases hcl : coverageLits candidates nz xVars t with _ | ⟨a, l⟩
        · exact absurd hcl (hne t (by simp))
        · simp [addClause_cons]
      rw [hstep, ih _ (fun t' ht' => hne t' (by simp [ht']))]
      simp [List.append_assoc]
  intro cnf h
  exact hgen essential cnf h

theorem addAtMostK_ext (cnf : CNF) (xs : List Int) (R : Int) :
    ∃ L, (addAtMostK cnf xs R).clauses = cnf.clauses ++ L ∧
      cnf.numVars ≤ (addAtMostK cnf xs R).numVars := by
  by_cases h0 : xs.length = 0 ∨ R ≥ (xs.length : Int)
  · rw [addAtMostK_noop cnf xs R h0]
    exact ⟨[], by simp⟩
  · by_cases hR : R ≤ 0
    · rw [addAtMostK_nonpos cnf xs R hR]
      exact ⟨[], by simp⟩
    · rw [addAtMostK_eq cnf xs R (by omega) (by omega)]
      exact ⟨scClauses cnf.numVars xs R.toNat, rfl, by simp⟩

theorem addExactlyK_ext (cnf : CNF) (xs : List Int) (K : Int) :
    ∃ L, (addExactlyK cnf xs K).clauses = cnf.clauses ++ L ∧
      cnf.numVars ≤ (addExactlyK cnf xs K).numVars := by
  by_cases h0 : K ≤ 0 ∨ K > (xs.length : Int)
  · rw [addExactlyK_noop cnf xs K h0]
    exact ⟨[], by simp⟩
  · rw [addExactlyK_eq cnf xs K (by omega) (by omega)]
    exact ⟨scClauses cnf.numVars xs K.toNat ++ [[sVar cnf.numVars K.toNat xs.length K.toNat]],
      by simp [List.append_assoc], by simp⟩

/-- Any clause-appending, variable-monotone fold step yields a
clause-appending, variable-monotone fold. -/
theorem foldl_clauses_ext {α : Type} (f : CNF → α → CNF)
    (hf : ∀ c a, ∃ L, (f c a).clauses = c.clauses ++ L ∧ c.numVars ≤ (f c a).numVars) :
    ∀ (l : List α) (cnf : CNF), ∃ L, (l.foldl f cnf).clauses = cnf.clauses ++ L ∧
      cnf.numVars ≤ (l.foldl f cnf).numVars := by
  intro l
  induction l with
  | nil => intro cnf; exact ⟨[], by simp⟩
  | cons a l ih =>
    intro cnf
    rw [List.foldl_cons]
    obtain ⟨L1, hL1, hn1⟩ := ih (f cnf a)
    obtain ⟨L2, hL2, hn2⟩ := hf cnf a
    exact ⟨L2 ++ L1, by rw [hL1, hL2, List.append_assoc], le_trans hn2 hn1⟩

/-! ## The x-variable block and the assembled instance -/

theorem xVarsOf_length (N : Nat) : (xVarsOf N).length = N := by
  simp [xVarsOf]

theorem xVarsOf_getD (N j : Nat) (hj : j < N) :
    (xVarsOf N).getD j 0 = ((j + 1 : Nat) : Int) := by
  rw [xVarsOf, List.getD_eq_getElem?_getD, List.getElem?_map]
  rw [List.getElem?_range hj]
  rfl

theorem xVarsOf_bounds (N : Nat) : ∀ l ∈ xVarsOf N, l ≠ 0 ∧ l.natAbs ≤ N := by
  intro l hl
  rw [xVarsOf, List.mem_map] at hl
  obtain ⟨j, hj, rfl⟩ := hl
  rw [List.mem_range] at hj
  constructor
  · positivity
  · simp only [Int.natAbs_ofNat]
    omega

theorem allocVars_zero (N : Nat) :
    allocVars { numVars := 0, clauses := [] } N
      = (xVarsOf N, { numVars := N, clauses := [] }) := by
  rw [allocVars_eq]
  simp only [Prod.mk.injEq, xVarsOf]
  constructor
  · exact List.map_congr_left (fun j _ => by norm_num)
  · simp

theorem mem_coverageLits (C : List Int) (nz : Int → List Bool) (xV : List Int)
    (t : Nat) (l : Int) :
    l ∈ coverageLits C nz xV t
      ↔ ∃ j < C.length, (nz (C.getD j 0)).getD t false = true ∧ l = xV.getD j 0 := by
  rw [coverageLits, List.mem_filterMap]
  constructor
  · rintro ⟨j, hj, hsome⟩
    rw [List.mem_range] at hj
    by_cases hb : (nz (C.getD j 0)).getD t false = true
    · rw [if_pos hb] at hsome
      exact ⟨j, hj, hb, (Option.some.injEq _ _ ▸ hsome).symm⟩
    · rw [if_neg hb] at hsome
      exact absurd hsome (Option.some_ne_none _).symm
  · rintro ⟨j, hj, hb, rfl⟩
    exact ⟨j, List.mem_range.mpr hj, by rw [if_pos hb]⟩

theorem encodeFrom_unfold (C : List Int) (nz : Int → List Bool) (T : Nat)
    (ds : List Int) (k : Int) :
    encodeFrom C nz T ds k
      = ds.foldl (fun c d =>
          let lits := (List.range C.length).filterMap (fun j =>
            if (C.getD j 0) % d == 0 then some ((xVarsOf C.length).getD j 0) else none)
          if lits.isEmpty then c
          else addAtMostK c lits (max 0 (k - 2)))
        (addExactlyK
          (coverageAssembly { numVars := C.length, clauses := [] } C nz (xVarsOf C.length)
            (reduceTimesByDominance (buildCoverageSets C nz T))).1
          (xVarsOf C.length) k) := by
  simp only [encodeFrom, allocVars_zero]

theorem encodeFrom_ext_over_base (C : List Int) (nz : Int → List Bool) (T : Nat)
    (ds : List Int) (k : Int) :
    ∃ L, (encodeFrom C nz T ds k).clauses
        = (coverageAssembly { numVars := C.length, clauses := [] } C nz (xVarsOf C.length)
            (reduceTimesByDominance (buildCoverageSets C nz T))).1.clauses ++ L := by
  rw [encodeFrom_unfold]
  obtain ⟨L1, hL1, _⟩ := foldl_clauses_ext
    (fun c d =>
      let lits := (List.range C.length).filterMap (fun j =>
        if (C.getD j 0) % d == 0 then some ((xVarsOf C.length).getD j 0) else none)
      if lits.isEmpty then c
      else addAtMostK c lits (max 0 (k - 2)))
    (fun c d => by
      dsimp only
      split_ifs with h
      · exact ⟨[], by simp⟩
      · exact addAtMostK_ext c _ _)
    ds _
  obtain ⟨L2, hL2, _⟩ := addExactlyK_ext
    (coverageAssembly { numVars := C.length, clauses := [] } C nz (xVarsOf C.length)
      (reduceTimesByDominance (buildCoverageSets C nz T))).1 (xVarsOf C.length) k
  exact ⟨L2 ++ L1, by rw [hL1, hL2, List.append_assoc]⟩

theorem encodeFrom_pair_of_empty (C : List Int) (nz : Int → List Bool) (T : Nat)
    (ds : List Int) (k : Int)
    (hbad : ∃ t ∈ reduceTimesByDominance (buildCoverageSets C nz T),
      coverageLits C nz (xVarsOf C.length) t = []) :
    ∃ d : Int, 0 < d ∧ [d] ∈ (encodeFrom C nz T ds k).clauses ∧
      [-d] ∈ (encodeFrom C nz T ds k).clauses := by
  obtain ⟨d, hd, h1, h2⟩ := coverageAssembly_pair C nz (xVarsOf C.length)
    (reduceTimesByDominance (buildCoverageSets C nz T))
    ({ numVars := C.length, clauses := [] }, 0) (by intro h; omega) hbad
  obtain ⟨L, hL⟩ := encodeFrom_ext_over_base C nz T ds k
  rw [hL]
  exact ⟨d, hd, List.mem_append_left _ h1, List.mem_append_left _ h2⟩

theorem encodeFrom_mem_coverage (C : List Int) (nz : Int → List Bool) (T : Nat)
    (ds : List Int) (k : Int) :
    ∀ t ∈ reduceTimesByDominance (buildCoverageSets C nz T),
      coverageLits C nz (xVarsOf C.length) t ≠ [] →
      coverageLits C nz (xVarsOf C.length) t ∈ (encodeFrom C nz T ds k).clauses := by
  intro t ht hne
  obtain ⟨L, hL⟩ := encodeFrom_ext_over_base C nz T ds k
  rw [hL]
  exact List.mem_append_left _
    (coverageAssembly_mem_clause C nz (xVarsOf C.length) _ _ t ht hne)

theorem encodeFrom_eq_nodiv (C : List Int) (nz : Int → List Bool) (T : Nat) (k : Int)
    (hne : ∀ t ∈ reduceTimesByDominance (buildCoverageSets C nz T),
      coverageLits C nz (xVarsOf C.length) t ≠ []) :
    encodeFrom C nz T [] k
      = addExactlyK
          { numVars := C.length,
            clauses := (reduceTimesByDominance (buildCoverageSets C nz T)).map
              (coverageLits C nz (xVarsOf C.length)) }
          (xVarsOf C.length) k := by
  rw [encodeFrom_unfold, List.foldl_nil,
    coverageAssembly_all_nonempty C nz (xVarsOf C.length) _ _ hne]
  simp

/-! ## Counting and coverage utilities -/

theorem countTrue_xVars (σ : Int → Bool) (N : Nat) :
    countTrue σ (xVarsOf N)
      = ((List.range N).filter (fun j => σ ((j + 1 : Nat) : Int))).length := by
  rw [countTrue, xVarsOf, List.filter_map, List.length_map]
  congr 1
  apply List.filter_congr
  intro j _
  simp only [Function.comp_apply]
  exact litSat_of_pos σ _ (by positivity)

theorem exists_pad (p : Nat → Bool) :
    ∀ N k : Nat, ((List.range N).filter p).length ≤ k → k ≤ N →
      ∃ q : Nat → Bool, (∀ j, p j = true → q j = true) ∧
        ((List.range N).filter q).length = k := by
  intro N
  induction N with
  | zero =>
    intro k hm hk
    exact ⟨p, fun j h => h, by omega⟩
  | succ N ih =>
    intro k hm hk
    rcases Nat.lt_or_ge k (N + 1) with hkN | hkN
    · by_cases hpN : p N = true
      · have hm' : ((List.range N).filter p).length + 1 ≤ k := by
          rw [List.range_succ, List.filter_append] at hm
          simp [hpN] at hm
          omega
        obtain ⟨q, hq1, hq2⟩ := ih (k - 1) (by omega) (by omega)
        refine ⟨fun j => q j || (j == N), fun j hj => by simp [hq1 j hj], ?_⟩
        rw [List.range_succ, List.filter_append]
        have he1 : (List.range N).filter (fun j => q j || (j == N))
            = (List.range N).filter q := by
          apply List.filter_congr
          intro j hj
          rw [List.mem_range] at hj
          simp [Nat.ne_of_lt hj]
        have he2 : [N].filter (fun j => q j || (j == N)) = [N] := by
          simp
        rw [he1, he2, List.length_append, hq2]
        simp
        omega
      · have hm' : ((List.range N).filter p).length ≤ k := by
          rw [List.range_succ, List.filter_append] at hm
          simp [hpN] at hm
          omega
        obtain ⟨q, hq1, hq2⟩ := ih k hm' (by omega)
        refine ⟨fun j => q j && !(j == N), fun j hj => ?_, ?_⟩
        · have hjN : j ≠ N := by
            intro h
            rw [h] at hj
            exact absurd hj (by simp [hpN])
          simp [hq1 j hj, hjN]
        · rw [List.range_succ, List.filter_append]
          have he1 : (List.range N).filter (fun j => q j && !(j == N))
              = (List.range N).filter q := by
            apply List.filter_congr
            intro j hj
            rw [List.mem_range] at hj
            simp [Nat.ne_of_lt hj]
          have he2 : [N].filter (fun j => q j && !(j == N)) = [] := by
            simp
          rw [he1, he2, List.length_append, hq2]
          simp
    · have hkeq : k = N + 1 := by omega
      refine ⟨fun _ => true, fun j _ => rfl, ?_⟩
      rw [hkeq]
      simp

theorem bsOr_comm (a b : List Bool) : bsOr a b = bsOr b a :=
  List.zipWith_comm_of_comm _ Bool.or_comm a b

theorem dominates_bit_subset (a b : Int) (nz : Int → List Bool) (ds : List Int)
    (h : dominatesVelocity a b nz ds = true) (hlen : (nz a).length = (nz b).length) :
    ∀ t, (nz b).getD t false = true → (nz a).getD t false = true := by
  obtain ⟨hor, -⟩ := (dominatesVelocity_iff a b nz ds).mp h
  intro t hb
  exact bsOr_eq_subset (nz b) (nz a) hlen.symm (by rw [bsOr_comm]; exact hor) t hb

theorem buildCoverageSets_length (C : List Int) (nz : Int → List Bool) (T : Nat) :
    (buildCoverageSets C nz T).length = T := by
  simp [buildCoverageSets]

theorem buildCoverageSets_width (C : List Int) (nz : Int → List Bool) (T : Nat) :
    ∀ row ∈ buildCoverageSets C nz T, row.length = C.length := by
  intro row hrow
  rw [buildCoverageSets, List.mem_map] at hrow
  obtain ⟨t, _, rfl⟩ := hrow
  simp

theorem coverBit (C : List Int) (nz : Int → List Bool) (T t j : Nat)
    (ht : t < T) (hj : j < C.length) :
    ((buildCoverageSets C nz T).getD t []).getD j false
      = (nz (C.getD j 0)).getD t false := by
  have hCj : C.getD j 0 = C.get ⟨j, hj⟩ := by
    rw [List.getD_eq_getElem?_getD, List.getElem?_eq_getElem hj]
    rfl
  have hrow : (buildCoverageSets C nz T).getD t []
      = C.map (fun v => (nz v).getD t false) := by
    rw [buildCoverageSets, List.getD_eq_getElem?_getD, List.getElem?_map,
      List.getElem?_range ht]
    rfl
  rw [hrow, List.getD_eq_getElem?_getD, List.getElem?_map, List.getElem?_eq_getElem hj]
  simp only [Option.map_some, Option.getD_some, hCj]
  rfl

theorem mem_reduceTimes_lt (cover : List (List Bool)) (t : Nat)
    (ht : t ∈ reduceTimesByDominance cover) : t < cover.length := by
  rw [reduceTimesByDominance_eq, List.mem_filter] at ht
  exact List.mem_range.mp ht.1

theorem coversAll_all_slots (C : List Int) (nz : Int → List Bool) (T : Nat)
    (σ : Int → Bool) (hcov : coversAll C nz T σ) :
    ∀ t < T, ∃ j < C.length, (nz (C.getD j 0)).getD t false = true ∧
      σ ((j + 1 : Nat) : Int) = true := by
  intro t ht
  by_cases hmem : t ∈ reduceTimesByDominance (buildCoverageSets C nz T)
  · exact hcov t hmem
  · obtain ⟨t', ht', hsub⟩ := reduceTimes_discarded_has_subset
      (buildCoverageSets C nz T) C.length (buildCoverageSets_width C nz T) t
      (by rw [buildCoverageSets_length]; exact ht) hmem
    obtain ⟨j, hj, hbit, hσ⟩ := hcov t' ht'
    have ht'T : t' < T := by
      have := mem_reduceTimes_lt _ _ ht'
      rwa [buildCoverageSets_length] at this
    refine ⟨j, hj, ?_, hσ⟩
    have hb' : ((buildCoverageSets C nz T).getD t' []).getD j false = true := by
      rw [coverBit C nz T t' j ht'T hj]
      exact hbit
    have hb := hsub j hb'
    rwa [coverBit C nz T t j ht hj] at hb

/-- Satisfiability of the assembled instance with an empty divisor list,
characterized on the problem variables. -/
theorem sat_nodiv_iff (C : List Int) (nz : Int → List Bool) (T : Nat) (k : Int) :
    satisfiable (encodeFrom C nz T [] k)
      ↔ ∃ σ : Int → Bool, coversAll C nz T σ ∧
          (1 ≤ k → k ≤ (C.length : Int) →
            countTrue σ (xVarsOf C.length) ≤ k.toNat) := by
  constructor
  · rintro ⟨σ, hsat⟩
    have hne : ∀ t ∈ reduceTimesByDominance (buildCoverageSets C nz T),
        coverageLits C nz (xVarsOf C.length) t ≠ [] := by
      intro t ht hempty
      obtain ⟨d, hd, h1, h2⟩ := encodeFrom_pair_of_empty C nz T [] k ⟨t, ht, hempty⟩
      exact unsat_of_pair _ d hd h1 h2 ⟨σ, hsat⟩
    rw [encodeFrom_eq_nodiv C nz T k hne] at hsat
    have hcov : coversAll C nz T σ := by
      intro t ht
      have hclmem : coverageLits C nz (xVarsOf C.length) t
          ∈ (addExactlyK
              { numVars := C.length,
                clauses := (reduceTimesByDominance (buildCoverageSets C nz T)).map
                  (coverageLits C nz (xVarsOf C.length)) }
              (xVarsOf C.length) k).clauses := by
        obtain ⟨L, hL, -⟩ := addExactlyK_ext
          { numVars := C.length,
            clauses := (reduceTimesByDominance (buildCoverageSets C nz T)).map
              (coverageLits C nz (xVarsOf C.length)) }
          (xVarsOf C.length) k
        rw [hL]
        exact List.mem_append_left _ (List.mem_map_of_mem _ ht)
      have hcl := clauseSat_of_mem σ _ _ hsat hclmem
      rw [clauseSat, List.any_eq_true] at hcl
      obtain ⟨l, hlmem, hlsat⟩ := hcl
      obtain ⟨j, hj, hbit, hleq⟩ := (mem_coverageLits C nz (xVarsOf C.length) t l).mp hlmem
      refine ⟨j, hj, hbit, ?_⟩
      rw [hleq, xVarsOf_getD C.length j hj] at hlsat
      rwa [litSat_of_pos σ _ (by positivity)] at hlsat
    refine ⟨σ, hcov, ?_⟩
    intro hk1 hkN
    rw [addExactlyK_eq _ _ k hk1 (by rw [xVarsOf_length]; exact hkN)] at hsat
    simp only [xVarsOf_length] at hsat
    have hscsat : cnfSat σ (scClauses C.length (xVarsOf C.length) k.toNat) = true := by
      simp only [cnfSat, List.all_append, Bool.and_eq_true] at hsat
      have := hsat.1.2
      rwa [cnfSat]
    have := sc_sound C.length (xVarsOf C.length) k.toNat σ (by omega)
      (by rw [xVarsOf_length]; omega)
      (fun l hl => (xVarsOf_bounds C.length l hl).1) hscsat
    exact this
  · rintro ⟨σ, hcov, hcnt⟩
    have hne : ∀ t ∈ reduceTimesByDominance (buildCoverageSets C nz T),
        coverageLits C nz (xVarsOf C.length) t ≠ [] := by
      intro t ht hempty
      obtain ⟨j, hj, hbit, -⟩ := hcov t ht
      have : (xVarsOf C.length).getD j 0 ∈ coverageLits C nz (xVarsOf C.length) t :=
        (mem_coverageLits C nz (xVarsOf C.length) t _).mpr ⟨j, hj, hbit, rfl⟩
      rw [hempty] at this
      exact absurd this (List.not_mem_nil _)
    rw [encodeFrom_eq_nodiv C nz T k hne]
    by_cases hact : 1 ≤ k ∧ k ≤ (C.length : Int)
    · -- pad σ up to exactly k true problem variables, then extend canonically
      obtain ⟨q, hq1, hq2⟩ := exists_pad (fun j => σ ((j + 1 : Nat) : Int))
        C.length k.toNat
        (by rw [← countTrue_xVars]; exact hcnt hact.1 hact.2) (by omega)
      set σ1 : Int → Bool := fun v =>
        if 0 < v ∧ v ≤ (C.length : Int) then q (v.toNat - 1) else false with hσ1
      have hσ1x : ∀ j < C.length, σ1 ((j + 1 : Nat) : Int) = q j := by
        intro j hj
        have hstep : σ1 ((j + 1 : Nat) : Int)
            = q ((((j + 1 : Nat) : Int)).toNat - 1) := by
          rw [hσ1]
          exact if_pos ⟨by positivity, by exact_mod_cast by omega⟩
        rw [hstep]
        congr 1
      have hcnt1 : countTrue σ1 (xVarsOf C.length) = k.toNat := by
        rw [countTrue_xVars, ← hq2]
        congr 1
        apply List.filter_congr
        intro j hj
        exact hσ1x j (List.mem_range.mp hj)
      set τ := canonExt σ1 C.length (xVarsOf C.length) k.toNat with hτ
      refine ⟨τ, ?_⟩
      rw [addExactlyK_eq _ _ k hact.1 (by rw [xVarsOf_length]; exact hact.2)]
      simp only [xVarsOf_length]
      rw [cnfSat, List.all_append, List.all_append, Bool.and_eq_true, Bool.and_eq_true]
      refine ⟨⟨?_, ?_⟩, ?_⟩
      · -- the coverage clauses
        rw [List.all_eq_true]
        intro cl hcl
        rw [List.mem_map] at hcl
        obtain ⟨t, ht, rfl⟩ := hcl
        obtain ⟨j, hj, hbit, hσj⟩ := hcov t ht
        rw [clauseSat, List.any_eq_true]
        refine ⟨(xVarsOf C.length).getD j 0,
          (mem_coverageLits C nz (xVarsOf C.length) t _).mpr ⟨j, hj, hbit, rfl⟩, ?_⟩
        rw [xVarsOf_getD C.length j hj, litSat_of_pos _ _ (by positivity), hτ,
          canonExt_agree _ _ _ _ _ (by exact_mod_cast by omega), hσ1x j hj]
        exact hq1 j hσj
      · -- the sequential-counter clauses
        have := sc_complete C.length (xVarsOf C.length) k.toNat σ1 (by omega)
          (by rw [xVarsOf_length]; omega)
          (fun l hl => xVarsOf_bounds C.length l hl)
          (by rw [hcnt1])
        rwa [cnfSat] at this
      · -- the unit clause forcing the counter output
        rw [List.all_eq_true]
        intro cl hcl
        rw [List.mem_singleton] at hcl
        subst hcl
        rw [clauseSat, List.any_eq_true]
        refine ⟨sVar C.length k.toNat C.length k.toNat, List.mem_singleton_self _, ?_⟩
        have hcfull : cntp σ1 (xVarsOf C.length) C.length = k.toNat := by
          have hfull := cntp_full σ1 (xVarsOf C.length)
          rw [xVarsOf_length] at hfull
          rw [hfull, hcnt1]
        rw [litSat_of_pos _ _ (sVar_pos _ _ _ _ (by omega)), hτ,
          canonExt_cell σ1 C.length (xVarsOf C.length) k.toNat C.length k.toNat
            (by omega) (by rw [xVarsOf_length]) (by omega) (by omega)]
        rw [hcfull]
        simp
    · -- no cardinality constraint is emitted
      rw [addExactlyK_noop _ _ k (by rw [xVarsOf_length]; omega)]
      refine ⟨σ, ?_⟩
      rw [cnfSat, List.all_eq_true]
      intro cl hcl
      rw [List.mem_map] at hcl
      obtain ⟨t, ht, rfl⟩ := hcl
      obtain ⟨j, hj, hbit, hσj⟩ := hcov t ht
      rw [clauseSat, List.any_eq_true]
      refine ⟨(xVarsOf C.length).getD j 0,
        (mem_coverageLits C nz (xVarsOf C.length) t _).mpr ⟨j, hj, hbit, rfl⟩, ?_⟩
      rw [xVarsOf_getD C.length j hj, litSat_of_pos _ _ (by positivity)]
      exact hσj

/-! ## Index-set counting -/

theorem length_filter_range (n : Nat) (p : Nat → Bool) :
    ((List.range n).filter p).length
      = ((Finset.range n).filter (fun i => p i = true)).card := by
  induction n with
  | zero => simp
  | succ n ih =>
    rw [List.range_succ, List.filter_append, List.length_append, Finset.range_succ,
      Finset.filter_insert]
    by_cases h : p n = true
    · rw [if_pos h, Finset.card_insert_of_not_mem (by simp [Finset.mem_filter])]
      simp [h, ih]
    · rw [if_neg h]
      simp [h, ih]

theorem countTrue_xVars_card (σ : Int → Bool) (N : Nat) :
    countTrue σ (xVarsOf N) = (trueIdxF σ N).card := by
  rw [countTrue_xVars, trueIdxF, length_filter_range]

theorem countTrue_xVars_le (σ : Int → Bool) (N : Nat) :
    countTrue σ (xVarsOf N) ≤ N := by
  rw [countTrue_xVars_card]
  calc (trueIdxF σ N).card ≤ (Finset.range N).card := Finset.card_le_card
        (Finset.filter_subset _ _)
  _ = N := Finset.card_range N

theorem mem_trueIdxF (σ : Int → Bool) (N j : Nat) :
    j ∈ trueIdxF σ N ↔ j < N ∧ σ ((j + 1 : Nat) : Int) = true := by
  rw [trueIdxF, Finset.mem_filter, Finset.mem_range]

theorem reduceCandidates_sublist (C : List Int) (nz : Int → List Bool) (ds : List Int) :
    (reduceCandidatesByDominance C nz ds).Sublist C := by
  rw [reduceCandidatesByDominance_eq]
  exact filter_range_map_getD_sublist C 0 _

theorem reduceCandidates_length_le (C : List Int) (nz : Int → List Bool) (ds : List Int) :
    (reduceCandidatesByDominance C nz ds).length ≤ C.length :=
  (reduceCandidates_sublist C nz ds).length_le

theorem getD_map_of_lt {α β : Type} (f : α → β) (l : List α) (da : α) (d : β) :
    ∀ i, i < l.length → (l.map f).getD i d = f (l.getD i da) := by
  induction l with
  | nil => intro i hi; simp at hi
  | cons x t ih =>
    intro i hi
    cases i with
    | zero => rfl
    | succ i => exact ih i (by simpa using hi)

theorem getD_mem_of_lt {α : Type} (l : List α) (i : Nat) (d : α) (h : i < l.length) :
    l.getD i d ∈ l := by
  rw [List.getD_eq_getElem?_getD, List.getElem?_eq_getElem h]
  exact List.getElem_mem _

/-! ## Transfer of models across the candidate reduction -/

theorem coversAll_transfer_to_reduced (C : List Int) (nz : Int → List Bool) (T : Nat)
    (hlen : ∀ v ∈ C, (nz v).length = T) (σ : Int → Bool)
    (hcov : coversAll C nz T σ) :
    ∃ σ' : Int → Bool, coversAll (reduceCandidatesByDominance C nz []) nz T σ' ∧
      countTrue σ' (xVarsOf (reduceCandidatesByDominance C nz []).length)
        ≤ countTrue σ (xVarsOf C.length) := by
  set Rl := reduceCandidatesByDominance C nz [] with hRl
  set M := Rl.length with hM
  have hg : ∀ j : Nat, ∃ i : Nat, j < C.length →
      (i < M ∧ dominatesVelocity (Rl.getD i 0) (C.getD j 0) nz [] = true) := by
    intro j
    by_cases hj : j < C.length
    · obtain ⟨c', hc', hdom⟩ := reduceCandidates_dominator C nz [] j hj
      obtain ⟨i, hiM, hieq⟩ := List.getElem_of_mem hc'
      refine ⟨i, fun _ => ⟨hiM, ?_⟩⟩
      have hgd : Rl.getD i 0 = c' := by
        rw [List.getD_eq_getElem?_getD, List.getElem?_eq_getElem hiM]
        exact hieq
      rwa [hgd]
    · exact ⟨0, fun h => absurd h hj⟩
  choose g hgspec using hg
  refine ⟨fun v => decide (∃ j ∈ trueIdxF σ C.length, ((g j + 1 : Nat) : Int) = v),
    ?_, ?_⟩
  · intro t ht
    have htT : t < T := by
      have := mem_reduceTimes_lt _ _ ht
      rwa [buildCoverageSets_length] at this
    obtain ⟨j, hjN, hbit, hσj⟩ := coversAll_all_slots C nz T σ hcov t htT
    obtain ⟨hgM, hgdom⟩ := hgspec j hjN
    refine ⟨g j, hgM, ?_, ?_⟩
    · refine dominates_bit_subset _ _ nz [] hgdom ?_ t hbit
      rw [hlen _ (getD_mem_of_lt C j 0 hjN),
        hlen _ ((reduceCandidates_sublist C nz []).subset (getD_mem_of_lt Rl (g j) 0 hgM))]
    · rw [decide_eq_true_eq]
      exact ⟨j, (mem_trueIdxF σ C.length j).mpr ⟨hjN, hσj⟩, rfl⟩
  · rw [countTrue_xVars_card, countTrue_xVars_card]
    have hsub : trueIdxF (fun v =>
        decide (∃ j ∈ trueIdxF σ C.length, ((g j + 1 : Nat) : Int) = v)) M
          ⊆ (trueIdxF σ C.length).image g := by
      intro i hi
      rw [mem_trueIdxF, decide_eq_true_eq] at hi
      obtain ⟨hiM, j, hjmem, hcast⟩ := hi
      have hgj : g j = i := by
        have : (g j + 1 : Nat) = (i + 1 : Nat) := by exact_mod_cast hcast
        omega
      exact Finset.mem_image.mpr ⟨j, hjmem, hgj⟩
    calc (trueIdxF (fun v =>
          decide (∃ j ∈ trueIdxF σ C.length, ((g j + 1 : Nat) : Int) = v)) M).card
        ≤ ((trueIdxF σ C.length).image g).card := Finset.card_le_card hsub
    _ ≤ (trueIdxF σ C.length).card := Finset.card_image_le

theorem coversAll_transfer_to_full (C : List Int) (nz : Int → List Bool) (T : Nat)
    (σr : Int → Bool)
    (hcov : coversAll (reduceCandidatesByDominance C nz []) nz T σr) :
    ∃ σ : Int → Bool, coversAll C nz T σ ∧
      countTrue σ (xVarsOf C.length)
        ≤ countTrue σr (xVarsOf (reduceCandidatesByDominance C nz []).length) := by
  set Rl := reduceCandidatesByDominance C nz [] with hRl
  set M := Rl.length with hM
  set I : List Nat := (List.range C.length).filter
    (fun i => !((markAll (fun i j => dominatesVelocity (C.getD i 0)
      (C.getD j 0) nz []) C.length).getD i false)) with hI
  have hRlI : Rl = I.map (fun i => C.getD i 0) := by
    rw [hRl, reduceCandidatesByDominance_eq]
  have hMI : M = I.length := by
    rw [hM, hRlI, List.length_map]
  have hIlt : ∀ i < I.length, I.getD i 0 < C.length := by
    intro i hi
    have := (List.mem_filter.mp (getD_mem_of_lt I i 0 hi)).1
    exact List.mem_range.mp this
  have hRlval : ∀ i < M, Rl.getD i 0 = C.getD (I.getD i 0) 0 := by
    intro i hi
    rw [hRlI]
    exact getD_map_of_lt _ I 0 0 i (by rw [← hMI]; exact hi)
  refine ⟨fun v => decide (∃ i ∈ trueIdxF σr M, ((I.getD i 0 + 1 : Nat) : Int) = v),
    ?_, ?_⟩
  · intro t ht
    have htT : t < T := by
      have := mem_reduceTimes_lt _ _ ht
      rwa [buildCoverageSets_length] at this
    obtain ⟨i, hiM, hbit, hσi⟩ := coversAll_all_slots Rl nz T σr hcov t htT
    refine ⟨I.getD i 0, hIlt i (by rw [← hMI]; exact hiM), ?_, ?_⟩
    · rw [← hRlval i hiM]
      exact hbit
    · rw [decide_eq_true_eq]
      exact ⟨i, (mem_trueIdxF σr M i).mpr ⟨hiM, hσi⟩, rfl⟩
  · rw [countTrue_xVars_card, countTrue_xVars_card]
    have hsub : trueIdxF (fun v =>
        decide (∃ i ∈ trueIdxF σr M, ((I.getD i 0 + 1 : Nat) : Int) = v)) C.length
          ⊆ (trueIdxF σr M).image (fun i => I.getD i 0) := by
      intro j hj
      rw [mem_trueIdxF, decide_eq_true_eq] at hj
      obtain ⟨hjN, i, himem, hcast⟩ := hj
      have hgj : I.getD i 0 = j := by
        have : (I.getD i 0 + 1 : Nat) = (j + 1 : Nat) := by exact_mod_cast hcast
        omega
      exact Finset.mem_image.mpr ⟨i, himem, hgj⟩
    calc (trueIdxF (fun v =>
          decide (∃ i ∈ trueIdxF σr M, ((I.getD i 0 + 1 : Nat) : Int) = v)) C.length).card
        ≤ ((trueIdxF σr M).image (fun i => I.getD i 0)).card := Finset.card_le_card hsub
    _ ≤ (trueIdxF σr M).card := Finset.card_image_le

/-- Satisfiability equivalence of the full and candidate-reduced instances,
for an empty divisor list and coverage rows of uniform width. -/
theorem reduction_sat_equiv (C : List Int) (nz : Int → List Bool) (T : Nat) (k : Int)
    (hlen : ∀ v ∈ C, (nz v).length = T) :
    (satisfiable (encodeFrom C nz T [] k)
      ↔ satisfiable (encodeFrom (reduceCandidatesByDominance C nz []) nz T [] k)) := by
  rw [sat_nodiv_iff, sat_nodiv_iff]
  constructor
  · rintro ⟨σ, hcov, hcnt⟩
    obtain ⟨σ', hcov', hle⟩ := coversAll_transfer_to_reduced C nz T hlen σ hcov
    refine ⟨σ', hcov', ?_⟩
    intro hk1 hkM
    have hMN : ((reduceCandidatesByDominance C nz []).length : Int) ≤ (C.length : Int) := by
      exact_mod_cast reduceCandidates_length_le C nz []
    have := hcnt hk1 (le_trans hkM hMN)
    omega
  · rintro ⟨σr, hcovr, hcntr⟩
    obtain ⟨σ, hcov, hle⟩ := coversAll_transfer_to_full C nz T σr hcovr
    refine ⟨σ, hcov, ?_⟩
    intro hk1 hkN
    by_cases hkM : k ≤ ((reduceCandidatesByDominance C nz []).length : Int)
    · have := hcntr hk1 hkM
      omega
    · have hb := countTrue_xVars_le σr (reduceCandidatesByDominance C nz []).length
      omega

/-! ## Well-formedness: literal magnitudes stay within the variable counter -/

theorem sVar_natAbs (v0 R i j : Nat) : (sVar v0 R i j).natAbs = v0 + cb R i + j := by
  rw [sVar]
  exact Int.natAbs_ofNat _

theorem scClauses_lit_bounds (v0 : Nat) (xs : List Int) (R : Nat)
    (hR1 : 1 ≤ R) (hRn : R ≤ xs.length)
    (hx : ∀ l ∈ xs, 1 ≤ l.natAbs ∧ l.natAbs ≤ v0) :
    ∀ cl ∈ scClauses v0 xs R, ∀ l ∈ cl,
      1 ≤ l.natAbs ∧ l.natAbs ≤ v0 + cb R (xs.length + 1) := by
  have hn1 : 1 ≤ xs.length := by omega
  have hs : ∀ a b : Nat, a ≤ xs.length → 1 ≤ b → b ≤ min a R →
      1 ≤ (sVar v0 R a b).natAbs ∧
        (sVar v0 R a b).natAbs ≤ v0 + cb R (xs.length + 1) := by
    intro a b ha hb1 hbm
    rw [sVar_natAbs]
    have h1 := cb_step_le R a b hbm
    have h2 := cb_mono R (show a + 1 ≤ xs.length + 1 by omega)
    omega
  have hxb : ∀ i : Nat, i < xs.length →
      1 ≤ (xs.getD i 0).natAbs ∧ (xs.getD i 0).natAbs ≤ v0 + cb R (xs.length + 1) := by
    intro i hi
    have := hx _ (getD_mem_of_lt xs i 0 hi)
    omega
  intro cl hcl
  simp only [scClauses, List.mem_append, List.mem_cons, List.not_mem_nil, or_false,
    List.mem_flatten, List.mem_map] at hcl
  rcases hcl with (rfl | rfl) | ⟨L, ⟨i, hi, rfl⟩, hclL⟩
  · intro l hl
    simp only [List.mem_cons, List.not_mem_nil, or_false] at hl
    rcases hl with rfl | rfl
    · rw [Int.natAbs_neg]
      exact hxb 0 (by omega)
    · exact hs 1 1 (by omega) (by omega) (by omega)
  · intro l hl
    simp only [List.mem_cons, List.not_mem_nil, or_false] at hl
    rcases hl with rfl | rfl
    · rw [Int.natAbs_neg]
      exact hs 1 1 (by omega) (by omega) (by omega)
    · exact hxb 0 (by omega)
  · rw [List.mem_range'_1] at hi
    have hi2 : 2 ≤ i := hi.1
    have hin : i ≤ xs.length := by omega
    rw [rowClauses, List.mem_append] at hclL
    rcases hclL with hcell | hforbid
    · rw [List.mem_flatten] at hcell
      obtain ⟨Lc, hLc, hclc⟩ := hcell
      rw [List.mem_map] at hLc
      obtain ⟨j, hj, rfl⟩ := hLc
      rw [List.mem_range'_1] at hj
      have hj1 : 1 ≤ j := hj.1
      have hjm : j ≤ min i R := by omega
      rcases cellClauses_cases v0 xs R i j hj1 cl hclc with
        ⟨hc, rfl⟩ | ⟨hc, rfl⟩ | ⟨hc, rfl⟩ | ⟨hc, rfl⟩ | ⟨hc1, hc2, rfl⟩ | ⟨hc1, hc2, rfl⟩ <;>
        · intro l hl
          simp only [List.mem_cons, List.not_mem_nil, or_false] at hl
          rcases hl with rfl | rfl | rfl <;>
            (try simp only [Int.natAbs_neg]) <;>
            first
              | exact hs i j hin hj1 hjm
              | exact hs (i-1) j (by omega) hj1 (by omega)
              | exact hs (i-1) (j-1) (by omega) (by omega) (by omega)
              | exact hs (i-1) 1 (by omega) (by omega) (by omega)
              | exact hxb (i-1) (by omega)
    · rw [List.mem_ite_nil_right] at hforbid
      obtain ⟨hRi, hcl⟩ := hforbid
      rw [List.mem_singleton] at hcl
      subst hcl
      intro l hl
      simp only [List.mem_cons, List.not_mem_nil, or_false] at hl
      rcases hl with rfl | rfl
      · rw [Int.natAbs_neg]
        exact hxb (i-1) (by omega)
      · rw [Int.natAbs_neg]
        exact hs (i-1) R (by omega) (by omega) (by omega)

theorem addAtMostK_wf (cnf : CNF) (xs : List Int) (R : Int)
    (hwf : cnf.wf) (hx : ∀ l ∈ xs, 1 ≤ l.natAbs ∧ l.natAbs ≤ cnf.numVars) :
    (addAtMostK cnf xs R).wf := by
  by_cases h0 : xs.length = 0 ∨ R ≥ (xs.length : Int)
  · rw [addAtMostK_noop cnf xs R h0]
    exact hwf
  · by_cases hR : R ≤ 0
    · rw [addAtMostK_nonpos cnf xs R hR]
      exact hwf
    · rw [addAtMostK_eq cnf xs R (by omega) (by omega)]
      intro cl hcl
      simp only [List.mem_append] at hcl
      rcases hcl with hold | hnew
      · intro l hl
        have := hwf cl hold l hl
        have : l.natAbs ≤ cnf.numVars := this.2
        constructor
        · exact (hwf cl hold l hl).1
        · simp only
          omega
      · intro l hl
        have := scClauses_lit_bounds cnf.numVars xs R.toNat (by omega)
          (by omega) hx cl hnew l hl
        constructor
        · exact this.1
        · simp only
          omega

theorem addExactlyK_wf (cnf : CNF) (xs : List Int) (K : Int)
    (hwf : cnf.wf) (hx : ∀ l ∈ xs, 1 ≤ l.natAbs ∧ l.natAbs ≤ cnf.numVars) :
    (addExactlyK cnf xs K).wf := by
  by_cases h0 : K ≤ 0 ∨ K > (xs.length : Int)
  · rw [addExactlyK_noop cnf xs K h0]
    exact hwf
  · rw [addExactlyK_eq cnf xs K (by omega) (by omega)]
    intro cl hcl
    simp only [List.mem_append, List.mem_singleton] at hcl
    rcases hcl with (hold | hnew) | hunit
    · intro l hl
      have h := hwf cl hold l hl
      refine ⟨h.1, ?_⟩
      simp only
      omega
    · intro l hl
      have h := scClauses_lit_bounds cnf.numVars xs K.toNat (by omega)
        (by omega) hx cl hnew l hl
      refine ⟨h.1, ?_⟩
      simp only
      omega
    · subst hunit
      intro l hl
      rw [List.mem_singleton] at hl
      subst hl
      rw [sVar_natAbs]
      have h1 : K.toNat ≤ min xs.length K.toNat := by omega
      have h2 := cb_step_le K.toNat xs.length K.toNat h1
      constructor
      · omega
      · simp only
        omega

theorem coverageStep_wf (C : List Int) (nz : Int → List Bool) (xV : List Int)
    (st : CNF × Nat) (t : Nat) (hwf : st.1.wf)
    (hxv : ∀ j < C.length, 1 ≤ (xV.getD j 0).natAbs ∧ (xV.getD j 0).natAbs ≤ st.1.numVars) :
    (coverageStep C nz xV st t).1.wf ∧
      st.1.numVars ≤ (coverageStep C nz xV st t).1.numVars := by
  unfold coverageStep
  split_ifs with h1 h2
  · have hstep : addClause (addClause (newVar st.1).2 [(newVar st.1).1]) [-(newVar st.1).1]
        = { numVars := st.1.numVars + 1,
            clauses := st.1.clauses ++ [[((st.1.numVars + 1 : Nat) : Int)]]
              ++ [[-((st.1.numVars + 1 : Nat) : Int)]] } := by
      obtain ⟨v, cs⟩ := st.1
      simp [newVar, addClause_cons]
    rw [hstep]
    constructor
    · intro cl hcl
      simp only [List.mem_append, List.mem_singleton] at hcl
      rcases hcl with (hold | rfl) | rfl
      · intro l hl
        have h := hwf cl hold l hl
        refine ⟨h.1, ?_⟩
        simp only
        omega
      · intro l hl
        rw [List.mem_singleton] at hl
        subst hl
        simp only
        omega
      · intro l hl
        rw [List.mem_singleton] at hl
        subst hl
        simp only
        omega
    · simp
  · exact ⟨hwf, le_refl _⟩
  · constructor
    · rcases hcl : coverageLits C nz xV t with _ | ⟨a, ltl⟩
      · rw [hcl] at h1
        simp at h1
      · rw [addClause_cons]
        intro cl hmem
        simp only [List.mem_append, List.mem_singleton] at hmem
        rcases hmem with hold | rfl
        · exact hwf cl hold
        · intro l hl
          rw [← hcl] at hl
          obtain ⟨j, hj, hbit, rfl⟩ := (mem_coverageLits C nz xV t l).mp hl
          exact hxv j hj
    · rcases hcl : coverageLits C nz xV t with _ | ⟨a, ltl⟩
      · exact le_refl _
      · rw [addClause_cons]

theorem coverageAssembly_fold_wf (C : List Int) (nz : Int → List Bool) (xV : List Int)
    (ess : List Nat) :
    ∀ st : CNF × Nat, st.1.wf →
      (∀ j < C.length, 1 ≤ (xV.getD j 0).natAbs ∧ (xV.getD j 0).natAbs ≤ st.1.numVars) →
      (ess.foldl (coverageStep C nz xV) st).1.wf ∧
        st.1.numVars ≤ (ess.foldl (coverageStep C nz xV) st).1.numVars := by
  induction ess with
  | nil => intro st hwf _; exact ⟨hwf, le_refl _⟩
  | cons t ess ih =>
    intro st hwf hxv
    rw [List.foldl_cons]
    obtain ⟨hwf1, hn1⟩ := coverageStep_wf C nz xV st t hwf hxv
    obtain ⟨hwf2, hn2⟩ := ih (coverageStep C nz xV st t) hwf1
      (fun j hj => ⟨(hxv j hj).1, le_trans (hxv j hj).2 hn1⟩)
    exact ⟨hwf2, le_trans hn1 hn2⟩

theorem encodeFrom_wf (C : List Int) (nz : Int → List Bool) (T : Nat)
    (ds : List Int) (k : Int) : (encodeFrom C nz T ds k).wf := by
  rw [encodeFrom_unfold]
  set N := C.length with hN
  have hxv0 : ∀ j < N, 1 ≤ ((xVarsOf N).getD j 0).natAbs ∧
      ((xVarsOf N).getD j 0).natAbs ≤ N := by
    intro j hj
    rw [xVarsOf_getD N j hj]
    simp only [Int.natAbs_ofNat]
    omega
  have hbase : (CNF.wf { numVars := N, clauses := [] }) := by
    intro cl hcl
    exact absurd hcl (List.not_mem_nil _)
  obtain ⟨hwf1, hn1⟩ := coverageAssembly_fold_wf C nz (xVarsOf N)
    (reduceTimesByDominance (buildCoverageSets C nz T))
    ({ numVars := N, clauses := [] }, 0) hbase hxv0
  set base := coverageAssembly { numVars := N, clauses := [] } C nz (xVarsOf N)
    (reduceTimesByDominance (buildCoverageSets C nz T)) with hbase2
  have hwfE : (addExactlyK base.1 (xVarsOf N) k).wf := by
    apply addExactlyK_wf _ _ _ hwf1
    intro l hl
    obtain ⟨j, hj, rfl⟩ : ∃ j, ∃ _ : j < N, l = (xVarsOf N).getD j 0 := by
      rw [xVarsOf, List.mem_map] at hl
      obtain ⟨j, hj, rfl⟩ := hl
      rw [List.mem_range] at hj
      exact ⟨j, hj, by rw [xVarsOf_getD N j hj]⟩
    exact ⟨(hxv0 j hj).1, le_trans (hxv0 j hj).2 hn1⟩
  have hnE : N ≤ (addExactlyK base.1 (xVarsOf N) k).numVars := by
    obtain ⟨L, hL, hn⟩ := addExactlyK_ext base.1 (xVarsOf N) k
    exact le_trans hn1 hn
  have hfold : ∀ (l : List Int) (c : CNF), c.wf → N ≤ c.numVars →
      ((l.foldl (fun c d =>
        let lits := (List.range N).filterMap (fun j =>
          if (C.getD j 0) % d == 0 then some ((xVarsOf N).getD j 0) else none)
        if lits.isEmpty then c
        else addAtMostK c lits (max 0 (k - 2))) c).wf ∧
      N ≤ (l.foldl (fun c d =>
        let lits := (List.range N).filterMap (fun j =>
          if (C.getD j 0) % d == 0 then some ((xVarsOf N).getD j 0) else none)
        if lits.isEmpty then c
        else addAtMostK c lits (max 0 (k - 2))) c).numVars) := by
    intro l
    induction l with
    | nil => intro c hwf hn; exact ⟨hwf, hn⟩
    | cons d l ih =>
      intro c hwf hn
      rw [List.foldl_cons]
      apply ih
      · dsimp only
        split_ifs with hemp
        · exact hwf
        · apply addAtMostK_wf _ _ _ hwf
          intro x hx
          rw [List.mem_filterMap] at hx
          obtain ⟨j, hj, hsome⟩ := hx
          rw [List.mem_range] at hj
          by_cases hdiv : (C.getD j 0) % d == 0
          · rw [if_pos hdiv] at hsome
            obtain rfl := (Option.some.injEq _ _ ▸ hsome)
            exact ⟨(hxv0 j hj).1, le_trans (hxv0 j hj).2 hn⟩
          · rw [if_neg hdiv] at hsome
            exact absurd hsome (Option.some_ne_none _).symm
      · dsimp only
        split_ifs with hemp
        · exact hn
        · obtain ⟨L, hL, hmono⟩ := addAtMostK_ext c _ (max 0 (k - 2))
          exact le_trans hn hmono
  exact (hfold ds _ hwfE hnE).1

/-! ## The reducers return subsequences and never empty a non-empty input -/

theorem reduceCandidates_ne_nil (C : List Int) (nz : Int → List Bool) (ds : List Int)
    (hC : C ≠ []) : reduceCandidatesByDominance C nz ds ≠ [] := by
  rw [reduceCandidatesByDominance_eq]
  obtain ⟨i, hin, hunm⟩ := markAll_exists_unmarked
    (fun i j => dominatesVelocity (C.getD i 0) (C.getD j 0) nz ds) C.length
    (by cases C with
        | nil => exact absurd rfl hC
        | cons x t => simp)
  intro hnil
  rw [List.map_eq_nil_iff] at hnil
  have hmem : i ∈ (List.range C.length).filter
      (fun i => !((markAll (fun i j => dominatesVelocity (C.getD i 0)
        (C.getD j 0) nz ds) C.length).getD i false)) :=
    List.mem_filter.mpr ⟨List.mem_range.mpr hin, by rw [hunm]; rfl⟩
  rw [hnil] at hmem
  exact absurd hmem (List.not_mem_nil _)

theorem reduceTimes_ne_nil (cover : List (List Bool)) (hc : cover ≠ []) :
    reduceTimesByDominance cover ≠ [] := by
  rw [reduceTimesByDominance_eq]
  obtain ⟨t, htn, hunm⟩ := markAll_exists_unmarked
    (fun t1 t2 => bsOr (cover.getD t1 []) (cover.getD t2 []) == cover.getD t2 [])
    cover.length
    (by cases cover with
        | nil => exact absurd rfl hc
        | cons x s => simp)
  intro hnil
  have hmem : t ∈ (List.range cover.length).filter
      (fun t => !((markAll (fun t1 t2 => bsOr (cover.getD t1 []) (cover.getD t2 [])
        == cover.getD t2 []) cover.length).getD t false)) :=
    List.mem_filter.mpr ⟨List.mem_range.mpr htn, by rw [hunm]; rfl⟩
  rw [hnil] at hmem
  exact absurd hmem (List.not_mem_nil _)

theorem reduceTimes_pairwise_lt (cover : List (List Bool)) :
    (reduceTimesByDominance cover).Pairwise (· < ·) := by
  rw [reduceTimesByDominance_eq]
  exact (List.pairwise_lt_range cover.length).sublist (List.filter_sublist _)

/-! ## DIMACS output -/

theorem join_hoist : ∀ (xs : List String) (a : String),
    xs.foldl (· ++ ·) a = a ++ xs.foldl (· ++ ·) "" := by
  intro xs
  induction xs with
  | nil => intro a; exact (String.append_empty a).symm
  | cons x xs ih =>
    intro a
    rw [List.foldl_cons, List.foldl_cons, ih (a ++ x), ih ("" ++ x),
      String.empty_append, String.append_assoc]

theorem join_cons (x : String) (xs : List String) :
    String.join (x :: xs) = x ++ String.join xs := by
  show (x :: xs).foldl (· ++ ·) "" = x ++ xs.foldl (· ++ ·) ""
  rw [List.foldl_cons, String.empty_append, join_hoist xs x]

theorem join_sepJoin (l : List String) :
    String.join (l.map (fun s => s ++ " ")) ++ "0" = sepJoin " " (l ++ ["0"]) := by
  induction l with
  | nil =>
    show String.join [] ++ "0" = sepJoin " " ["0"]
    rw [show String.join [] = "" from rfl, String.empty_append]
    rfl
  | cons a t ih =>
    cases t with
    | nil =>
      show String.join [a ++ " "] ++ "0" = sepJoin " " [a, "0"]
      rw [join_cons, show String.join [] = "" from rfl, String.append_empty]
      rfl
    | cons b r =>
      show String.join ((a ++ " ") :: (b :: r).map (fun s => s ++ " ")) ++ "0"
        = sepJoin " " (a :: (b :: r) ++ ["0"])
      rw [join_cons,
        String.append_assoc (a ++ " ") (String.join ((b :: r).map (fun s => s ++ " "))) "0",
        ih]
      rfl

/-! ## The claims -/

/-- C1 (amended): for every literal list `xs` over variables `1..v0` and
every bound `1 ≤ R < |xs|`, an assignment of the problem variables extends
to a model of the clauses emitted by `addAtMostK` exactly when at most `R`
literals of `xs` are true. (The spec's range `0 ≤ R` is cut to `1 ≤ R`:
at `R = 0` the builder silently emits nothing, see the counterexample.) -/
theorem atMostK_projection_amended (v0 : Nat) (xs : List Int) (R : Int) (σ : Int → Bool)
    (hx : ∀ l ∈ xs, l ≠ 0 ∧ l.natAbs ≤ v0) (hR1 : 1 ≤ R) (hRn : R < (xs.length : Int)) :
    (∃ τ : Int → Bool, (∀ v : Int, 0 < v → v ≤ (v0 : Int) → τ v = σ v) ∧
        cnfSat τ (addAtMostK { numVars := v0, clauses := [] } xs R).clauses = true)
      ↔ countTrue σ xs ≤ R.toNat :=
  atMostK_model_iff v0 xs R σ hx hR1 hRn

/-- C1, the counterexample to the claim's range `0 ≤ R`: at `R = 0` the
all-true assignment has `1 > 0` true literals yet satisfies every emitted
clause, because `addAtMostK` emits nothing at all. -/
theorem atMostK_R0_counterexample :
    countTrue (fun _ => true) [(1 : Int)] = 1 ∧
    cnfSat (fun _ => true)
      (addAtMostK { numVars := 1, clauses := [] } [(1 : Int)] 0).clauses = true := by
  decide

/-- C1 witness: the amended equivalence at `xs = [1, 2]`, `R = 1`, `v0 = 2`,
`σ` true exactly on variable `1`. -/
theorem atMostK_projection_amended_witness :
    ((∀ l ∈ ([1, 2] : List Int), l ≠ 0 ∧ l.natAbs ≤ 2) ∧
      (1 : Int) ≤ 1 ∧ (1 : Int) < (([1, 2] : List Int).length : Int)) ∧
    ((∃ τ : Int → Bool, (∀ v : Int, 0 < v → v ≤ ((2 : Nat) : Int) → τ v = (fun v => v == 1) v) ∧
        cnfSat τ (addAtMostK { numVars := 2, clauses := [] } [1, 2] 1).clauses = true)
      ↔ countTrue (fun v => v == 1) [1, 2] ≤ (1 : Int).toNat) :=
  ⟨⟨by decide, by decide, by decide⟩,
    atMostK_projection_amended 2 [1, 2] 1 (fun v => v == 1) (by decide) (by decide) (by decide)⟩

/-- C2, the code bug: `addExactlyK` on `[1, 2, 3]` with `K = 2` admits a
model in which zero of the three literals are true — the diagonal counter
cells get no justifying clauses, so forcing `s[n][K]` does not force the
count up to `K`. The spec's count of `C(3, 2) = 3` projected models is
wrong; assignments with all true literals inside the first `K` positions
also extend. -/
theorem exactlyK_spurious_model :
    countTrue (fun v => v == 6 || v == 8) [1, 2, 3] = 0 ∧
    cnfSat (fun v => v == 6 || v == 8)
      (addExactlyK { numVars := 3, clauses := [] } [1, 2, 3] 2).clauses = true := by
  decide

/-- C3 (amended): with an empty divisor list and near-zero rows of uniform
width, the candidate dominance reduction preserves satisfiability of the
assembled instance. (The original claim over every divisor list is false,
see the counterexample: a dominator can lie in more divisor classes than
the candidate it replaces, tightening the at-most-(k-2) constraints.) -/
theorem candidateReduction_sat_equiv (C : List Int) (nz : Int → List Bool) (T : Nat)
    (k : Int) (hlen : ∀ v ∈ C, (nz v).length = T) :
    (satisfiable (encodeFrom C nz T [] k)
      ↔ satisfiable (encodeFrom (reduceCandidatesByDominance C nz []) nz T [] k)) :=
  reduction_sat_equiv C nz T k hlen

/-- C3, the counterexample to the original claim: with divisor list `[2]`
and `k = 3`, the full instance over candidates `[1, 2, 3, 4]` is
satisfiable but the instance over the reduced candidates `[2, 4]` is not:
the surviving dominator `2` is even, so the at-most-`k-2` constraint for
divisor `2` now blocks the only way to cover all three slots. -/
theorem candidateReduction_counterexample :
    satisfiable (encodeFrom [1, 2, 3, 4] nzC3 3 [2] 3) ∧
    ¬ satisfiable (encodeFrom (reduceCandidatesByDominance [1, 2, 3, 4] nzC3 [2]) nzC3 3 [2] 3) := by
  constructor
  · exact ⟨fun v => decide (v ∈ ([1, 3, 4, 5, 6, 8, 9, 11, 12, 13, 15] : List Int)),
      by decide⟩
  · rintro ⟨σ, hsat⟩
    have hcl : (encodeFrom (reduceCandidatesByDominance [1, 2, 3, 4] nzC3 [2])
        nzC3 3 [2] 3).clauses
        = [[1], [2], [-1, 3], [-3, 1], [-3, 4], [-2, 4], [-4, 3, 2], [-2, -3]] := by
      decide
    rw [hcl] at hsat
    have h1 : litSat σ 1 = true := by
      have := clauseSat_of_mem σ _ [1] hsat (by simp)
      simpa [clauseSat] using this
    have h2 : litSat σ 2 = true := by
      have := clauseSat_of_mem σ _ [2] hsat (by simp)
      simpa [clauseSat] using this
    have h13 := (clauseSat_pair σ (-1) 3).mp (clauseSat_of_mem σ _ [-1, 3] hsat (by simp))
    have h3 : litSat σ 3 = true := by
      rcases h13 with ha | hb
      · exact (litSat_neg_elim σ 1 (by decide) h1 ha).elim
      · exact hb
    have h23 := (clauseSat_pair σ (-2) (-3)).mp
      (clauseSat_of_mem σ _ [-2, -3] hsat (by simp))
    rcases h23 with ha | hb
    · exact litSat_neg_elim σ 2 (by decide) h2 ha
    · exact litSat_neg_elim σ 3 (by decide) h3 hb

/-- C3 witness: the amended equivalence at `C = [1, 2]`, a single slot both
candidates cover, `k = 1`. -/
theorem candidateReduction_sat_equiv_witness :
    (∀ v ∈ ([1, 2] : List Int), ((fun _ : Int => [true]) v).length = 1) ∧
    (satisfiable (encodeFrom [1, 2] (fun _ : Int => [true]) 1 [] 1)
      ↔ satisfiable (encodeFrom (reduceCandidatesByDominance [1, 2] (fun _ : Int => [true]) [])
          (fun _ : Int => [true]) 1 [] 1)) :=
  ⟨by decide, candidateReduction_sat_equiv [1, 2] (fun _ : Int => [true]) 1 1 (by decide)⟩

/-- C4, the code bug: `addAtMostK` with `R = 0` on the non-empty list
`[1, 2]` leaves the instance untouched — no unit clauses forcing the
literals false are emitted, because `buildSequentialCounter` returns
immediately on `R <= 0`. -/
theorem addAtMostK_R0_skipped :
    addAtMostK { numVars := 5, clauses := [] } [1, 2] 0
      = { numVars := 5, clauses := [] } := by
  decide

/-- C5: a slot discarded by `reduceTimesByDominance` always has a surviving
slot whose covering-candidate set is contained in the discarded slot's
covering set (the reducer drops only supersets, keeping the
harder-to-satisfy subset slot as a proxy). -/
theorem reduceTimes_drop_superset_only (cover : List (List Bool)) (W : Nat)
    (hW : ∀ row ∈ cover, row.length = W) (t : Nat) (ht : t < cover.length)
    (hdisc : t ∉ reduceTimesByDominance cover) :
    ∃ t' ∈ reduceTimesByDominance cover, ∀ j : Nat,
      (cover.getD t' []).getD j false = true → (cover.getD t []).getD j false = true :=
  reduceTimes_discarded_has_subset cover W hW t ht hdisc

/-- C5 witness: in `[[true, true], [true, false]]` slot `0` is discarded
and surviving slot `1` covers a subset of its candidates. -/
theorem reduceTimes_drop_superset_only_witness :
    ((∀ row ∈ [[true, true], [true, false]], row.length = 2) ∧
      0 < ([[true, true], [true, false]] : List (List Bool)).length ∧
      0 ∉ reduceTimesByDominance [[true, true], [true, false]]) ∧
    (∃ t' ∈ reduceTimesByDominance [[true, true], [true, false]], ∀ j : Nat,
      (([[true, true], [true, false]] : List (List Bool)).getD t' []).getD j false = true →
      (([[true, true], [true, false]] : List (List Bool)).getD 0 []).getD j false = true) :=
  ⟨⟨by decide, by decide, by decide⟩,
    reduceTimes_drop_superset_only [[true, true], [true, false]] 2 (by decide) 0
      (by decide) (by decide)⟩

/-- C6: when some essential slot has an empty coverage clause, the
assembled instance stores a forced-contradiction pair on a positive fresh
variable, is unsatisfiable, and still stores the coverage clause of every
essential slot whose clause is non-empty (assembly does not stop at the
first uncoverable slot). -/
theorem uncoverable_slot_contradiction (C : List Int) (nz : Int → List Bool) (T : Nat)
    (ds : List Int) (k : Int)
    (hbad : ∃ t ∈ reduceTimesByDominance (buildCoverageSets C nz T),
      coverageLits C nz (xVarsOf C.length) t = []) :
    (∃ d : Int, 0 < d ∧ [d] ∈ (encodeFrom C nz T ds k).clauses ∧
      [-d] ∈ (encodeFrom C nz T ds k).clauses) ∧
    ¬ satisfiable (encodeFrom C nz T ds k) ∧
    (∀ t ∈ reduceTimesByDominance (buildCoverageSets C nz T),
      coverageLits C nz (xVarsOf C.length) t ≠ [] →
      coverageLits C nz (xVarsOf C.length) t ∈ (encodeFrom C nz T ds k).clauses) := by
  obtain ⟨d, hd, hd1, hd2⟩ := encodeFrom_pair_of_empty C nz T ds k hbad
  exact ⟨⟨d, hd, hd1, hd2⟩, unsat_of_pair _ d hd hd1 hd2,
    encodeFrom_mem_coverage C nz T ds k⟩

/-- C6 witness: one candidate that covers nothing; the single essential
slot is uncoverable. -/
theorem uncoverable_slot_contradiction_witness :
    (∃ t ∈ reduceTimesByDominance (buildCoverageSets [1] (fun _ : Int => [false]) 1),
      coverageLits [1] (fun _ : Int => [false]) (xVarsOf ([1] : List Int).length) t = []) ∧
    ((∃ d : Int, 0 < d ∧
        [d] ∈ (encodeFrom [1] (fun _ : Int => [false]) 1 [] 1).clauses ∧
        [-d] ∈ (encodeFrom [1] (fun _ : Int => [false]) 1 [] 1).clauses) ∧
      ¬ satisfiable (encodeFrom [1] (fun _ : Int => [false]) 1 [] 1) ∧
      (∀ t ∈ reduceTimesByDominance (buildCoverageSets [1] (fun _ : Int => [false]) 1),
        coverageLits [1] (fun _ : Int => [false]) (xVarsOf ([1] : List Int).length) t ≠ [] →
        coverageLits [1] (fun _ : Int => [false]) (xVarsOf ([1] : List Int).length) t
          ∈ (encodeFrom [1] (fun _ : Int => [false]) 1 [] 1).clauses)) :=
  ⟨by decide, uncoverable_slot_contradiction [1] (fun _ : Int => [false]) 1 [] 1 (by decide)⟩

/-- C7: every literal of every clause stored by the pipeline has magnitude
between 1 and the prevailing variable counter — preserved by `addAtMostK`
and `addExactlyK` and holding outright for the assembled instance — and
`newVar`/`allocVars` hand out 1-based, dense, strictly increasing,
never-reused variable ids. -/
theorem pipeline_literal_invariant :
    (∀ (C : List Int) (nz : Int → List Bool) (T : Nat) (ds : List Int) (k : Int),
      (encodeFrom C nz T ds k).wf)
    ∧ (∀ (cnf : CNF) (xs : List Int) (R : Int), cnf.wf →
        (∀ l ∈ xs, 1 ≤ l.natAbs ∧ l.natAbs ≤ cnf.numVars) → (addAtMostK cnf xs R).wf)
    ∧ (∀ (cnf : CNF) (xs : List Int) (K : Int), cnf.wf →
        (∀ l ∈ xs, 1 ≤ l.natAbs ∧ l.natAbs ≤ cnf.numVars) → (addExactlyK cnf xs K).wf)
    ∧ (∀ c : CNF, (newVar c).1 = ((c.numVars + 1 : Nat) : Int)
        ∧ (newVar c).2.numVars = c.numVars + 1 ∧ (newVar c).2.clauses = c.clauses)
    ∧ (∀ (cnf : CNF) (m : Nat), (allocVars cnf m).1
        = (List.range m).map (fun j => ((cnf.numVars + j + 1 : Nat) : Int))
        ∧ (allocVars cnf m).2.numVars = cnf.numVars + m) :=
  ⟨encodeFrom_wf, addAtMostK_wf, addExactlyK_wf, fun _ => ⟨rfl, rfl, rfl⟩,
    fun cnf m => ⟨by rw [allocVars_eq], by rw [allocVars_eq]⟩⟩

/-- C8: `addAtMostK` with `R ≥ |xs|` or `|xs| = 0` returns the instance
unchanged — no clauses, no new variables. -/
theorem addAtMostK_vacuous_noop (cnf : CNF) (xs : List Int) (R : Int)
    (h : xs.length = 0 ∨ R ≥ (xs.length : Int)) : addAtMostK cnf xs R = cnf :=
  addAtMostK_noop cnf xs R h

/-- C8 witness: the no-op at a non-trivial instance with `R = |xs| = 2`. -/
theorem addAtMostK_vacuous_noop_witness :
    (([1, 2] : List Int).length = 0 ∨ (2 : Int) ≥ ((([1, 2] : List Int).length : Nat) : Int)) ∧
    addAtMostK { numVars := 3, clauses := [[1]] } [1, 2] 2
      = { numVars := 3, clauses := [[1]] } :=
  ⟨by decide, addAtMostK_vacuous_noop { numVars := 3, clauses := [[1]] } [1, 2] 2 (by decide)⟩

/-- C9: `printDIMACS` produces exactly the header `p cnf <numVars>
<numClauses>` and then one line per stored clause, its literals in
insertion order separated by single spaces and terminated by a trailing
`0` — the format the specification prescribes, as a deterministic function
of the instance. -/
theorem printDIMACS_format (c : CNF) : printDIMACS c = dimacsSpec c := by
  unfold printDIMACS dimacsSpec
  congr 1
  apply congrArg String.join
  apply List.map_congr_left
  intro cl _
  have h := join_sepJoin (cl.map toString)
  have h2 : (cl.map toString).map (fun s => s ++ " ")
      = cl.map (fun lit => toString lit ++ " ") := by
    rw [List.map_map]
    exact List.map_congr_left (fun lit _ => rfl)
  have h0n : ("0\n" : String) = "0" ++ "\n" := by decide
  calc String.join (cl.map (fun lit => toString lit ++ " ")) ++ "0\n"
      = String.join (cl.map (fun lit => toString lit ++ " ")) ++ ("0" ++ "\n") := by
        rw [← h0n]
    _ = (String.join (cl.map (fun lit => toString lit ++ " ")) ++ "0") ++ "\n" := by
        rw [String.append_assoc]
    _ = (String.join ((cl.map toString).map (fun s => s ++ " ")) ++ "0") ++ "\n" := by
        rw [h2]
    _ = sepJoin " " (cl.map toString ++ ["0"]) ++ "\n" := by rw [h]

/-- C10: both reducers return order-preserving subsequences of their input
(the candidate reducer a sublist of the candidate list, the slot reducer a
strictly increasing list of in-range slot indices), and neither empties a
non-empty input. -/
theorem reducers_subsequence_nonempty :
    (∀ (C : List Int) (nz : Int → List Bool) (ds : List Int),
      (reduceCandidatesByDominance C nz ds).Sublist C)
    ∧ (∀ (C : List Int) (nz : Int → List Bool) (ds : List Int), C ≠ [] →
        reduceCandidatesByDominance C nz ds ≠ [])
    ∧ (∀ cover : List (List Bool), (reduceTimesByDominance cover).Pairwise (· < ·)
        ∧ ∀ t ∈ reduceTimesByDominance cover, t < cover.length)
    ∧ (∀ cover : List (List Bool), cover ≠ [] → reduceTimesByDominance cover ≠ []) :=
  ⟨reduceCandidates_sublist, reduceCandidates_ne_nil,
    fun cover => ⟨reduceTimes_pairwise_lt cover, fun t ht => mem_reduceTimes_lt cover t ht⟩,
    reduceTimes_ne_nil⟩
